import Mathlib

/-!
# helm-template: value merging and output routing

A shallow embedding of `main.go` (package `main` of n0madic/helm-template) and
the properties of its value resolver and output sink.

Go strings are byte sequences, so a string is a list of bytes here. A Go map
is given by the list of its entries, whose keys are pairwise distinct; a
`range` over a map visits the entries in an order that Go leaves open, here
the order of the list, and the properties below hold for every such list. The
maps decoded from the value files share no parts, so updating a map in place
and building the updated map agree.

The operating system and the libraries of Helm are parameters (`Env`); what a
run does is kept on record as a list of events (`World`).
-/

namespace HelmTemplate

/-- One byte of a Go string. -/
abbrev Byte := Fin 256

/-- A Go `string`: an immutable sequence of bytes. -/
abbrev GoString := List Byte

/-- The bytes of a string literal (its UTF-8 encoding). -/
def lit (s : String) : GoString :=
  s.toUTF8.data.toList.map (fun b => Fin.ofNat b.toNat)

/-- A Go `error`, identified with its message. -/
abbrev Error := GoString

/-- What a decoded YAML/JSON leaf can be apart from sequences and maps. -/
inductive Scalar where
  | null
  | bool (b : Bool)
  | number (text : GoString)
  | string (s : GoString)
  deriving DecidableEq, Repr

mutual
/-- The dynamic values behind `interface{}` in a decoded values document:
a scalar, a `[]interface{}` or a `map[string]interface{}`. -/
inductive Value where
  | scalar (s : Scalar)
  | seq (items : List Value)
  | map (entries : Doc)
/-- A `map[string]interface{}`, given by its entries. -/
inductive Doc where
  | nil
  | cons (k : GoString) (v : Value) (rest : Doc)
end

/-- The map with the given entries. -/
def Doc.ofList : List (GoString × Value) → Doc
  | [] => .nil
  | (k, v) :: rest => .cons k v (Doc.ofList rest)

/-- The keys of the entries of a map. -/
def Doc.keys : Doc → List GoString
  | .nil => []
  | .cons k _ rest => k :: rest.keys

/-- The keys of a Go map are pairwise distinct. -/
def keysNodup (m : Doc) : Prop := m.keys.Nodup

/-- Reading `m[k]` with the comma-ok form: the value, if the key exists. -/
def lookup (k : GoString) : Doc → Option Value
  | .nil => none
  | .cons k' v rest => if k' = k then some v else lookup k rest

/-- The assignment `m[k] = v`: replaces the entry of `k`, or adds one. -/
def assign (k : GoString) (v : Value) : Doc → Doc
  | .nil => .cons k v .nil
  | .cons k' v' rest =>
    if k' = k then .cons k v rest else .cons k' v' (assign k v rest)

/-- Whether the type assertion `v.(map[string]interface{})` succeeds. -/
def Value.isMap : Value → Bool
  | .map _ => true
  | _ => false

/-- `mergeValues` (main.go 214-243): merges source and destination map,
preferring values from the source map. Walks the entries of `src` and updates
`dest`, which is returned. -/
def mergeValues (dest : Doc) : Doc → Doc
  | .nil => dest
  | .cons k v rest =>
    let dest1 : Doc :=
      -- If the key doesn't exist already, then just set the key to that value
      match lookup k dest with
      | none => assign k v dest
      | some _ =>
        match v with
        | .map nextMap =>
          -- If the key doesn't exist already, then just set the key to that value
          match lookup k dest with
          | none => assign k (.map nextMap) dest
          | some (.map destMap) =>
            -- it is a map in both, so merge them
            assign k (.map (mergeValues destMap nextMap)) dest
          | some _ =>
            -- the key exists in the destination, but isn't a map
            assign k v dest
        | _ =>
          -- If it isn't another map, overwrite the value
          assign k v dest
    mergeValues dest1 rest

/-- The map after the loop body of `mergeValues` has run for the entry
`(k, v)` of `src` (main.go 216-240). -/
def mergeEntry (dest : Doc) (k : GoString) (v : Value) : Doc :=
  match lookup k dest with
  | none => assign k v dest
  | some _ =>
    match v with
    | .map nextMap =>
      match lookup k dest with
      | none => assign k (.map nextMap) dest
      | some (.map destMap) => assign k (.map (mergeValues destMap nextMap)) dest
      | some _ => assign k v dest
    | _ => assign k v dest

/-- What the loop body of `mergeValues` stores at the key of an entry of
`src` with the value `v`, when `dest` holds `d` there: the merge of the two
maps when both are maps, and `v` otherwise. -/
def mergedAt (d : Option Value) (v : Value) : Value :=
  match d, v with
  | some (.map destMap), .map nextMap => .map (mergeValues destMap nextMap)
  | _, _ => v

/-! ## Strings -/

/-- The byte `/`. -/
def slash : Byte := 47

/-- The byte `.`. -/
def dot : Byte := 46

/-- `strings.HasPrefix(s, p)`: `len(s) >= len(p) && s[:len(p)] == p`. -/
def hasPrefix (s p : GoString) : Bool :=
  decide (p.length ≤ s.length) && s.take p.length == p

/-- The comparison `a < b` of two Go strings: byte by byte, a proper initial
segment coming first. -/
def strLess : GoString → GoString → Bool
  | [], [] => false
  | [], _ :: _ => true
  | _ :: _, [] => false
  | a :: as, b :: bs =>
    if a < b then true else if b < a then false else strLess as bs

/-- Puts `x` in its place in an ascending list. -/
def insertSorted (x : GoString) : List GoString → List GoString
  | [] => [x]
  | y :: ys => if strLess x y then x :: y :: ys else y :: insertSorted x ys

/-- `sort.Strings`: rearranges the slice in ascending order of `<`. The
library leaves the algorithm open; equal strings cannot be told apart, so the
ascending rearrangement is unique and insertion sort computes it. -/
def sortStrings : List GoString → List GoString
  | [] => []
  | x :: xs => insertSorted x (sortStrings xs)

/-- The closure `in` of `run` (main.go 126-133): linear search. -/
def inList (needle : GoString) : List GoString → Bool
  | [] => false
  | h :: haystack => if h = needle then true else inList needle haystack

/-! ## Paths (packages `path` and `path/filepath`, Unix separators) -/

/-- The part of `path` after its last `/` (all of it when there is none). -/
def lastElement (path : GoString) : GoString :=
  (path.reverse.takeWhile (fun c => c ≠ slash)).reverse

/-- Strips the trailing slashes of `path`. -/
def stripTrailingSlashes (path : GoString) : GoString :=
  (path.reverse.dropWhile (fun c => c = slash)).reverse

/-- `filepath.Base`: the last element of the path, after trailing slashes are
removed; `.` for the empty path and `/` for a path of slashes only. -/
def filepathBase (path : GoString) : GoString :=
  if path = [] then lit "."
  else
    let path := lastElement (stripTrailingSlashes path)
    if path = [] then [slash] else path

/-- The inner loop of the `..` case of `path.Clean`, on the reversed buffer:
`removed` is the byte at `out.w`, given up last; the buffer shrinks while it
is longer than `dotdot` and that byte is not `/`. -/
def backtrackRev (dotdot : Nat) : Byte → List Byte → List Byte
  | _, [] => []
  | removed, b :: bs =>
    if dotdot < (b :: bs).length ∧ removed ≠ slash then backtrackRev dotdot b bs
    else b :: bs

/-- The buffer after `out.w--` and the loop that follows it in `path.Clean`. -/
def backtrack (dotdot : Nat) (out : GoString) : GoString :=
  match out.reverse with
  | [] => []
  | b :: bs => (backtrackRev dotdot b bs).reverse

/-- The test `r == n || path[r] == '/'` of `path.Clean` on the unread bytes:
the path ends here or goes on with a slash. -/
def atBoundary : GoString → Bool
  | [] => true
  | c :: _ => c = slash

/-- The buffer of `path.Clean` before a real path element is copied: add
slash if needed. -/
def addSlash (rooted : Bool) (out : GoString) : GoString :=
  if (rooted && out.length != 1) || (!rooted && out.length != 0) then out ++ [slash]
  else out

/-- The buffer and `dotdot` of `path.Clean` after a `..` element. -/
def dotdotStep (rooted : Bool) (out : GoString) (dotdot : Nat) : GoString × Nat :=
  if dotdot < out.length then
    -- can backtrack
    (backtrack dotdot out, dotdot)
  else if !rooted then
    -- cannot backtrack, but not rooted, so append .. element
    ((if 0 < out.length then out ++ [slash] else out) ++ [dot, dot],
      ((if 0 < out.length then out ++ [slash] else out) ++ [dot, dot]).length)
  else (out, dotdot)

/-- The main loop of `path.Clean` over the unread bytes of the path, with the
output buffer `out` and the index `dotdot`. The loop that copies a path
element runs here one byte per step, with `inElem` set while it is running.
Returns the final buffer and `dotdot`. -/
def cleanLoop (rooted : Bool) :
    GoString → Bool → GoString → Nat → GoString × Nat
  | [], _, out, dotdot => (out, dotdot)
  | c :: t, true, out, dotdot =>
    -- for ; r < n && path[r] != '/'; r++ { out.append(path[r]) }
    if c = slash then cleanLoop rooted t false out dotdot
    else cleanLoop rooted t true (out ++ [c]) dotdot
  | c :: t, false, out, dotdot =>
    if c = slash then
      -- empty path element
      cleanLoop rooted t false out dotdot
    else if c = dot ∧ atBoundary t then
      -- . element
      cleanLoop rooted t false out dotdot
    else
      match t with
      | [] =>
        -- real path element, the last byte of the path
        (addSlash rooted out ++ [c], dotdot)
      | d :: t' =>
        if c = dot ∧ d = dot ∧ atBoundary t' then
          -- .. element: remove to last /
          cleanLoop rooted t' false (dotdotStep rooted out dotdot).1
            (dotdotStep rooted out dotdot).2
        else
          -- real path element: add slash if needed, then copy the element
          cleanLoop rooted (d :: t') true (addSlash rooted out ++ [c]) dotdot

/-- A byte that starts a real path element: not a slash, and not the dot of
an element `.` or `..`. -/
def startsElement (c : Byte) (t : GoString) : Prop :=
  c ≠ slash ∧ ¬ (c = dot ∧ atBoundary t = true) ∧
    ¬ (c = dot ∧ ∃ t', t = dot :: t' ∧ atBoundary t' = true)

/-- `path.Clean`: the shortest path name equivalent to `path` by purely
lexical processing. -/
def pathClean (path : GoString) : GoString :=
  if path = [] then lit "."
  else
    let rooted : Bool := path.head? = some slash
    let out : GoString :=
      if rooted then (cleanLoop true path.tail false [slash] 1).1
      else (cleanLoop false path false [] 0).1
    -- Turn empty string into "."
    if out = [] then lit "." else out

/-- The buffer that `path.Join` builds: the elements separated by `/`, with
the empty elements before the first non-empty one left out. -/
def joinBuf : GoString → List GoString → GoString
  | buf, [] => buf
  | buf, e :: rest =>
    if 0 < buf.length ∨ e ≠ [] then
      joinBuf ((if 0 < buf.length then buf ++ [slash] else buf) ++ e) rest
    else joinBuf buf rest

/-- `path.Join`: joins the elements with `/` and cleans the result; the empty
string when every element is empty. -/
def pathJoin (elems : List GoString) : GoString :=
  if (elems.map List.length).sum = 0 then []
  else pathClean (joinBuf [] elems)

/-- The elements of a path: the pieces between its slashes, empty ones
included (`a//b/` has the elements `a`, the empty one, `b` and the empty one). -/
def segments : GoString → List GoString
  | [] => [[]]
  | c :: t =>
    if c = slash then [] :: segments t
    else
      match segments t with
      | [] => [[c]]
      | s :: ss => (c :: s) :: ss

/-- The path `p` is `dir` or lies below it: `p` continues `dir` with nothing,
or with something that starts at a slash, or `dir` itself ends in a slash. -/
def underDir (dir p : GoString) : Prop :=
  ∃ rel : GoString, p = dir ++ rel ∧
    (rel = [] ∨ rel.head? = some slash ∨ dir.getLast? = some slash)

/-- The elements of a path that `path.Clean` copies when the path has no
element `..`: those that are neither empty nor `.`. -/
def realElements (p : GoString) : List GoString :=
  (segments p).filter (fun s => decide (s ≠ []) && decide (s ≠ [dot]))

/-- The buffer of `path.Clean` after the elements `elems` are copied to it,
each after a slash where one is needed. -/
def copyElements (rooted : Bool) (out : GoString) (elems : List GoString) : GoString :=
  elems.foldl (fun o e => addSlash rooted o ++ e) out

/-- The elements put together again, with a slash between neighbours. -/
def joinSlash : List GoString → GoString
  | [] => []
  | [e] => e
  | e :: rest => e ++ slash :: joinSlash rest

/-- The path `p` is `dir` or lies below it, for a cleaned `dir`; below `.` lie
the relative paths without an element `..`. -/
def liesUnder (dir p : GoString) : Prop :=
  if dir = lit "." then p.head? ≠ some slash ∧ lit ".." ∉ segments p
  else underDir dir p

/-- The buffer and `dotdot` of `path.Clean` when the loop has read all of a
non-empty `path`. -/
def cleanState (path : GoString) : GoString × Nat :=
  if path.head? = some slash then cleanLoop true path.tail false [slash] 1
  else cleanLoop false path false [] 0

/-- `path.Dir`: all but the last element of the path, cleaned. -/
def pathDir (path : GoString) : GoString :=
  pathClean (path.take (path.length - (lastElement path).length))

/-! ## White space -/

/-- The ASCII bytes that `unicode.IsSpace` accepts: tab, line feed, vertical
tab, form feed, carriage return and space. -/
def isAsciiSpace (c : Byte) : Bool :=
  c = 9 || c = 10 || c = 11 || c = 12 || c = 13 || c = 32

/-- The two-byte UTF-8 encodings of white space: U+0085 and U+00A0. -/
def spaces2 : List GoString := [[0xC2, 0x85], [0xC2, 0xA0]]

/-- The three-byte UTF-8 encodings of white space: U+1680, U+2000 to U+200A,
U+2028, U+2029, U+202F, U+205F and U+3000. -/
def spaces3 : List GoString :=
  [[0xE1, 0x9A, 0x80], [0xE2, 0x80, 0x80], [0xE2, 0x80, 0x81], [0xE2, 0x80, 0x82],
   [0xE2, 0x80, 0x83], [0xE2, 0x80, 0x84], [0xE2, 0x80, 0x85], [0xE2, 0x80, 0x86],
   [0xE2, 0x80, 0x87], [0xE2, 0x80, 0x88], [0xE2, 0x80, 0x89], [0xE2, 0x80, 0x8A],
   [0xE2, 0x80, 0xA8], [0xE2, 0x80, 0xA9], [0xE2, 0x80, 0xAF], [0xE2, 0x81, 0x9F],
   [0xE3, 0x80, 0x80]]

/-- Removes the leading white space of `s`, where a white space is an ASCII
space byte or one of the sequences in `two` and `three`. -/
def trimLeading (two three : List GoString) : GoString → GoString
  | [] => []
  | a :: s =>
    if isAsciiSpace a then trimLeading two three s
    else
      match s with
      | [] => [a]
      | b :: s1 =>
        if [a, b] ∈ two then trimLeading two three s1
        else
          match s1 with
          | [] => [a, b]
          | c :: s2 =>
            if [a, b, c] ∈ three then trimLeading two three s2 else a :: b :: c :: s2

/-- `strings.TrimSpace`: `s` without its leading and trailing white space, as
defined by Unicode, read off the UTF-8 encoding (a byte that starts no valid
encoding of a white space code point is not white space). -/
def trimSpace (s : GoString) : GoString :=
  let s1 := trimLeading spaces2 spaces3 s
  (trimLeading (spaces2.map List.reverse) (spaces3.map List.reverse) s1.reverse).reverse

/-! ## Regular expressions (package `regexp`, the operators this program uses) -/

/-- The regular expressions needed for `whitespaceRegex`. -/
inductive Regex where
  /-- `^` without the multi-line flag: at the beginning of the text. -/
  | beginText
  /-- `$` without the multi-line flag: at the end of the text. -/
  | endText
  /-- `\s`: one of tab, line feed, form feed, carriage return, space. -/
  | perlSpace
  /-- `r*`. -/
  | star (r : Regex)
  /-- `rs`. -/
  | cat (r s : Regex)

/-- The class `\s` of RE2: `[\t\n\f\r ]` (no vertical tab, ASCII only). -/
def isPerlSpace (c : Byte) : Bool :=
  c = 9 || c = 10 || c = 12 || c = 13 || c = 32

/-- A position in the text: the number of bytes before it and the bytes after it. -/
abbrev Pos := Nat × GoString

/-- The positions reached from `p` by repeating `step` any number of times,
each repetition consuming input; `fuel` bounds the number of repetitions. -/
def starClosure (step : Pos → List Pos) : Nat → Pos → List Pos
  | 0, p => [p]
  | fuel + 1, p =>
    p :: ((step p).filter (fun q => q.2.length < p.2.length)).flatMap
      (starClosure step fuel)

/-- The positions at which a match of the expression that starts at `p` can end. -/
def Regex.ends : Regex → Pos → List Pos
  | .beginText, p => if p.1 = 0 then [p] else []
  | .endText, p => if p.2 = [] then [p] else []
  | .perlSpace, p =>
    match p.2 with
    | [] => []
    | c :: rest => if isPerlSpace c then [(p.1 + 1, rest)] else []
  | .star r, p => starClosure (fun q => Regex.ends r q) p.2.length p
  | .cat r s, p => (Regex.ends r p).flatMap (fun q => Regex.ends s q)

/-- `(*Regexp).MatchString`: whether the text contains a match, starting anywhere. -/
def Regex.matchString (re : Regex) (text : GoString) : Bool :=
  (List.range (text.length + 1)).any
    (fun i => !(Regex.ends re (i, text.drop i)).isEmpty)

/-- `whitespaceRegex`, compiled from `^\s*$` (main.go 47). -/
def whitespaceRegex : Regex :=
  .cat .beginText (.cat (.star .perlSpace) .endText)

/-! ## The program and its surroundings -/

/-- A `map[string]string`: entries with pairwise distinct keys. -/
structure StringMap where
  entries : List (GoString × GoString)
  nodup : (entries.map Prod.fst).Nodup

/-- The keys of the map, in the order a `range` loop happens to visit them. -/
def StringMap.keys (m : StringMap) : List GoString := m.entries.map Prod.fst

/-- The index expression `m[k]`: the value of `k`, or the empty string. -/
def StringMap.get (m : StringMap) (k : GoString) : GoString :=
  match m.entries.find? (fun e => e.1 = k) with
  | some e => e.2
  | none => []

/-- What the program does that can be seen from outside, and the calls of
its own functions that the properties speak of. -/
inductive Event where
  /-- Bytes written to standard output. -/
  | stdout (text : GoString)
  /-- `ioutil.ReadAll(os.Stdin)`. -/
  | readStdin
  /-- `ioutil.ReadFile(path)`. -/
  | readFile (path : GoString)
  /-- `os.Stat(path)`. -/
  | stat (path : GoString)
  /-- `os.MkdirAll(path, perm)`. -/
  | mkdirAll (path : GoString) (perm : Nat)
  /-- `os.Create(path)`. -/
  | create (path : GoString)
  /-- `f.WriteString(text)` on the file created at `path`. -/
  | writeString (path text : GoString)
  /-- `f.Close()` on the file created at `path`. -/
  | close (path : GoString)
  /-- A call `printOutput(name, data)`. -/
  | printOutput (name data : GoString)
  /-- A call `writeToFile(outputDir, name, data)`. -/
  | writeToFile (outputDir name data : GoString)
  deriving DecidableEq

/-- The result of `os.Stat` as far as the program looks at it. -/
inductive StatResult where
  | ok
  | notExist
  | failed (err : Error)

/-- `chartutil.ReleaseOptions` as filled in by `run`. -/
structure ReleaseOptions where
  name : GoString
  time : Nat
  namespaceName : GoString

/-- The operating system and the libraries the program calls, over a state
`σ` of the outside world; `χ` is the type of a loaded chart and `ρ` that of
the render values. Every operation may fail, and may depend on the state. -/
structure Env (σ χ ρ : Type) where
  readStdin : σ → Except Error GoString × σ
  readFile : GoString → σ → Except Error GoString × σ
  stat : GoString → σ → StatResult × σ
  mkdirAll : GoString → Nat → σ → Option Error × σ
  create : GoString → σ → Option Error × σ
  writeString : GoString → GoString → σ → Option Error × σ
  close : GoString → σ → σ
  now : σ → Nat × σ
  /-- `chartutil.Load`. -/
  load : GoString → σ → Except Error χ × σ
  /-- `yaml.Unmarshal` into an empty `map[string]interface{}`. -/
  yamlUnmarshal : GoString → Except Error Doc
  /-- `yaml.Marshal`. -/
  yamlMarshal : Doc → Except Error GoString
  /-- `strvals.ParseInto`: on success, the map after the assignment. -/
  parseInto : GoString → Doc → Except Error Doc
  /-- `strvals.ParseIntoString`. -/
  parseIntoString : GoString → Doc → Except Error Doc
  /-- `chartutil.ToRenderValues` with the raw values of the configuration. -/
  toRenderValues : χ → GoString → ReleaseOptions → Except Error ρ
  /-- `engine.New().Render`. -/
  render : χ → ρ → Except Error StringMap

/-- The command-line flags (the package-level variables of main.go 37-47). -/
structure Flags where
  setVals : List GoString
  setStringVals : List GoString
  valsFiles : List GoString
  flagVerbose : Bool
  showNotes : Bool
  releaseName : GoString
  namespaceName : GoString
  renderFiles : List GoString
  outputDir : GoString

/-- The outside world together with the record of what has happened. -/
structure World (σ : Type) where
  state : σ
  trace : List Event

/-- The calls of `printOutput` on record: name and data, in order. -/
def printCalls (trace : List Event) : List (GoString × GoString) :=
  trace.filterMap (fun e =>
    match e with
    | .printOutput name data => some (name, data)
    | _ => none)

/-- The calls of `writeToFile` on record: directory, name and data, in order. -/
def writeCalls (trace : List Event) : List (GoString × GoString × GoString) :=
  trace.filterMap (fun e =>
    match e with
    | .writeToFile outputDir name data => some (outputDir, name, data)
    | _ => none)

/-- The paths of the files created on record, in order. -/
def createdPaths (trace : List Event) : List GoString :=
  trace.filterMap (fun e =>
    match e with
    | .create path => some path
    | _ => none)

/-- The reads of standard input and of files on record, in order. -/
def readEvents (trace : List Event) : List Event :=
  trace.filter (fun e =>
    match e with
    | .readStdin => true
    | .readFile _ => true
    | _ => false)

/-- Records an event. -/
def World.log {σ : Type} (w : World σ) (e : Event) : World σ :=
  { w with trace := w.trace ++ [e] }

/-- `fmt.Println(s)` for a string or an error `s`. -/
def println {σ : Type} (s : GoString) (w : World σ) : World σ :=
  w.log (.stdout (s ++ lit "\n"))

/-- `fmt.Printf` with the text the format expands to. -/
def printf {σ : Type} (s : GoString) (w : World σ) : World σ :=
  w.log (.stdout s)

/-- `defaultDirectoryPermission` (main.go 50). -/
def defaultDirectoryPermission : Nat := 0o755

section Program
variable {σ χ ρ : Type}

/-- `os.Stat(path)`, recorded. -/
def osStat (env : Env σ χ ρ) (path : GoString) (w : World σ) : StatResult × World σ :=
  ((env.stat path w.state).1,
    { state := (env.stat path w.state).2, trace := w.trace ++ [.stat path] })

/-- `os.MkdirAll(path, perm)`, recorded. -/
def osMkdirAll (env : Env σ χ ρ) (path : GoString) (perm : Nat) (w : World σ) :
    Option Error × World σ :=
  ((env.mkdirAll path perm w.state).1,
    { state := (env.mkdirAll path perm w.state).2, trace := w.trace ++ [.mkdirAll path perm] })

/-- `os.Create(path)`, recorded. -/
def osCreate (env : Env σ χ ρ) (path : GoString) (w : World σ) : Option Error × World σ :=
  ((env.create path w.state).1,
    { state := (env.create path w.state).2, trace := w.trace ++ [.create path] })

/-- `f.WriteString(text)` on the file created at `path`, recorded. -/
def fileWriteString (env : Env σ χ ρ) (path text : GoString) (w : World σ) :
    Option Error × World σ :=
  ((env.writeString path text w.state).1,
    { state := (env.writeString path text w.state).2,
      trace := w.trace ++ [.writeString path text] })

/-- `f.Close()` on the file created at `path`, recorded. -/
def fileClose (env : Env σ χ ρ) (path : GoString) (w : World σ) : World σ :=
  { state := env.close path w.state, trace := w.trace ++ [.close path] }

/-- What `writeToFile` may put on record after the call itself, for the
destination `file`. -/
def fileEvent (file : GoString) (e : Event) : Prop :=
  e = .stat (pathDir file) ∨ e = .mkdirAll (pathDir file) defaultDirectoryPermission ∨
  e = .create file ∨ (∃ text, e = .writeString file text) ∨ e = .close file ∨
  ∃ text, e = .stdout text

/-- `ensureDirectoryForFile` (main.go 304-312): check if the directory exists
to create file, creates if don't exists. -/
def ensureDirectoryForFile (env : Env σ χ ρ) (file : GoString) (w : World σ) :
    Option Error × World σ :=
  let baseDir := pathDir file
  match osStat env baseDir w with
  | (.failed err, w1) => (some err, w1)
  | (_, w1) => osMkdirAll env baseDir defaultDirectoryPermission w1

/-- `writeToFile` (main.go 278-301): write the data to `<output-dir>/<name>`. -/
def writeToFile (env : Env σ χ ρ) (outputDir name data : GoString) (w : World σ) :
    Option Error × World σ :=
  let w0 := w.log (.writeToFile outputDir name data)
  let outfileName := pathJoin [outputDir, name]
  match ensureDirectoryForFile env outfileName w0 with
  | (some err, w1) => (some err, w1)
  | (none, w1) =>
    match osCreate env outfileName w1 with
    | (some err, w2) => (some err, w2)
    | (none, w2) =>
      -- from here on the deferred f.Close() runs on return
      match fileWriteString env outfileName
          (lit "##---\n# Source: " ++ name ++ lit "\n" ++ data) w2 with
      | (some err, w3) => (some err, fileClose env outfileName w3)
      | (none, w3) =>
        (none, fileClose env outfileName (printf (lit "wrote " ++ outfileName ++ lit "\n") w3))

/-- `printOutput` (main.go 262-275). -/
def printOutput (env : Env σ χ ρ) (flags : Flags) (name data : GoString) (w : World σ) :
    World σ :=
  let w0 := w.log (.printOutput name data)
  if flags.outputDir ≠ [] then
    -- blank template after execution
    if !whitespaceRegex.matchString data then
      match writeToFile env flags.outputDir name data w0 with
      | (some err, w1) => println err w1
      | (none, w1) => w1
    else w0
  else
    println data (printf (lit "---\n# Source: " ++ name ++ lit "\n") w0)

/-- The read of one entry of the value files in `vals` (main.go 176-182):
standard input or the named file. -/
def readValues (env : Env σ χ ρ) (filePath : GoString) (w : World σ) :
    Except Error GoString × World σ :=
  if trimSpace filePath = lit "-" then
    ((env.readStdin w.state).1,
      { state := (env.readStdin w.state).2, trace := w.trace ++ [.readStdin] })
  else
    ((env.readFile filePath w.state).1,
      { state := (env.readFile filePath w.state).2, trace := w.trace ++ [.readFile filePath] })

/-- The loop of `vals` over the value files (main.go 173-193), from the
accumulator `base`. -/
def valsFileLoop (env : Env σ χ ρ) : List GoString → Doc → World σ → Except Error Doc × World σ
  | [], base, w => (.ok base, w)
  | filePath :: rest, base, w =>
    match readValues env filePath w with
    | (.error err, w1) => (.error err, w1)
    | (.ok bytes, w1) =>
      match env.yamlUnmarshal bytes with
      | .error err =>
        (.error (lit "failed to parse " ++ filePath ++ lit ": " ++ err), w1)
      | .ok currentMap =>
        -- Merge with the previous map
        valsFileLoop env rest (mergeValues base currentMap) w1

/-- The reading and parsing steps of the loop of `vals` over the value files
(main.go 174-190) on their own: the parsed documents in list order, or the
error at which the loop returns. -/
def readDocs (env : Env σ χ ρ) : List GoString → World σ → Except Error (List Doc) × World σ
  | [], w => (.ok [], w)
  | filePath :: rest, w =>
    match readValues env filePath w with
    | (.error err, w1) => (.error err, w1)
    | (.ok bytes, w1) =>
      match env.yamlUnmarshal bytes with
      | .error err =>
        (.error (lit "failed to parse " ++ filePath ++ lit ": " ++ err), w1)
      | .ok currentMap =>
        match readDocs env rest w1 with
        | (.error err, w2) => (.error err, w2)
        | (.ok docs, w2) => (.ok (currentMap :: docs), w2)

/-- The accumulator `base` of `vals` after the loop over the value files,
given the documents the files parse to (main.go 170, 192). -/
def valsAccumulator (docs : List Doc) : Doc :=
  docs.foldl (fun base currentMap => mergeValues base currentMap) .nil

/-- The loops of `vals` over the `--set` and `--set-string` values
(main.go 196-207), with the parser and the words of the error message. -/
def valsSetLoop (parse : GoString → Doc → Except Error Doc) (what : GoString) :
    List GoString → Doc → Except Error Doc
  | [], base => .ok base
  | value :: rest, base =>
    match parse value base with
    | .error err => .error (lit "failed parsing " ++ what ++ lit " data: " ++ err)
    | .ok base1 => valsSetLoop parse what rest base1

/-- `vals` (main.go 169-210): merges the values of the files given with
the flag `values` and those given with `set`, marshaling them to YAML. -/
def vals (env : Env σ χ ρ) (valueFiles values stringValues : List GoString) (w : World σ) :
    Except Error GoString × World σ :=
  match valsFileLoop env valueFiles .nil w with
  | (.error err, w1) => (.error err, w1)
  | (.ok base, w1) =>
    match valsSetLoop env.parseInto (lit "--set") values base with
    | .error err => (.error err, w1)
    | .ok base1 =>
      match valsSetLoop env.parseIntoString (lit "--set-string") stringValues base1 with
      | .error err => (.error err, w1)
      | .ok base2 => (env.yamlMarshal base2, w1)

/-- How a call of `run` ends. -/
inductive Outcome where
  | returned (err : Option Error)
  | panicked (message : GoString)

/-- The first loop of `run` over the sorted keys (main.go 143-148), taken
when `renderFiles` is set. -/
def printOnly (env : Env σ χ ρ) (flags : Flags) (out : StringMap) :
    List GoString → World σ → World σ
  | [], w => w
  | name :: rest, w =>
    let data := out.get name
    if inList name flags.renderFiles then
      printOnly env flags out rest (printOutput env flags name data w)
    else printOnly env flags out rest w

/-- The second loop of `run` over the sorted keys (main.go 152-162). -/
def printDefault (env : Env σ χ ρ) (flags : Flags) (out : StringMap) :
    List GoString → World σ → World σ
  | [], w => w
  | name :: rest, w =>
    let data := out.get name
    let b := filepathBase name
    if !flags.showNotes && b = lit "NOTES.txt" then
      printDefault env flags out rest w
    else if hasPrefix b (lit "_") then
      printDefault env flags out rest w
    else printDefault env flags out rest (printOutput env flags name data w)

/-- What `printOutput` puts on record when no output directory is set: the
call, the separator with the comment line that names the source, and the
text with a line feed (main.go 272-273). -/
def stdoutBlock (name data : GoString) : List Event :=
  [.printOutput name data,
   .stdout (lit "---\n# Source: " ++ name ++ lit "\n"),
   .stdout (data ++ lit "\n")]

/-- The arguments of the calls of `printOutput` in the first loop of `run`
(main.go 143-148), in the order of the calls. -/
def selectOnly (flags : Flags) (out : StringMap) : List GoString → List (GoString × GoString)
  | [] => []
  | name :: rest =>
    let data := out.get name
    if inList name flags.renderFiles then (name, data) :: selectOnly flags out rest
    else selectOnly flags out rest

/-- The arguments of the calls of `printOutput` in the second loop of `run`
(main.go 152-162), in the order of the calls. -/
def selectDefault (flags : Flags) (out : StringMap) : List GoString → List (GoString × GoString)
  | [] => []
  | name :: rest =>
    let data := out.get name
    let b := filepathBase name
    if !flags.showNotes && b = lit "NOTES.txt" then selectDefault flags out rest
    else if hasPrefix b (lit "_") then selectDefault flags out rest
    else (name, data) :: selectDefault flags out rest

/-- The arguments of the calls of `printOutput` that `run` makes for the
rendered templates `out` (main.go 135-162), in the order of the calls. -/
def outputCalls (flags : Flags) (out : StringMap) : List (GoString × GoString) :=
  if 0 < flags.renderFiles.length then selectOnly flags out (sortStrings out.keys)
  else selectDefault flags out (sortStrings out.keys)

/-- The part of `run` that follows the rendering (main.go 126-163). -/
def runOutput (env : Env σ χ ρ) (flags : Flags) (out : StringMap) (w : World σ) :
    Outcome × World σ :=
  let sortedKeys := sortStrings out.keys
  -- If renderFiles is set, we ONLY print those.
  if 0 < flags.renderFiles.length then
    (.returned none, printOnly env flags out sortedKeys w)
  else
    (.returned none, printDefault env flags out sortedKeys w)

/-- The check of the output directory in `run` (main.go 91-96): whether
`run` panics because the directory does not exist. -/
def outputDirMissing (env : Env σ χ ρ) (flags : Flags) (w : World σ) : Bool × World σ :=
  if flags.outputDir ≠ [] then
    match osStat env flags.outputDir w with
    | (.notExist, w1) => (true, w1)
    | (_, w1) => (false, w1)
  else (false, w)

/-- The rendering in `run` (main.go 98-124) of the chart `c` with the merged
values `vv`: the rendered templates, or the way `run` ends without them. -/
def renderChart (env : Env σ χ ρ) (flags : Flags) (c : χ) (vv : GoString) (w : World σ) :
    Except Outcome StringMap × World σ :=
  let w1 :=
    if flags.flagVerbose then println vv (println (lit "---\n# merged values") w)
    else w
  let w2 : World σ := { w1 with state := (env.now w1.state).2 }
  let options : ReleaseOptions :=
    { name := flags.releaseName, time := (env.now w1.state).1,
      namespaceName := flags.namespaceName }
  match env.toRenderValues c vv options with
  | .error err => (.error (.returned (some err)), w2)
  | .ok renderVals =>
    match env.render c renderVals with
    | .error err => (.error (.returned (some err)), w2)
    | .ok out => (.ok out, w2)

/-- The part of `run` up to the rendering (main.go 78-124): the rendered
templates, or the way `run` ends before it has them. -/
def runRender (env : Env σ χ ρ) (flags : Flags) (args : List GoString) (w : World σ) :
    Except Outcome StringMap × World σ :=
  match args with
  | [] => (.error (.returned (some (lit "chart is required"))), w)
  | chart :: _ =>
    match (env.load chart w.state).1 with
    | .error err => (.error (.returned (some err)), { w with state := (env.load chart w.state).2 })
    | .ok c =>
      match vals env flags.valsFiles flags.setVals flags.setStringVals
          { w with state := (env.load chart w.state).2 } with
      | (.error err, w2) => (.error (.returned (some err)), w2)
      | (.ok vv, w2) =>
        match outputDirMissing env flags w2 with
        | (true, w3) =>
          (.error (.panicked
            (lit "output-dir " ++ [39] ++ flags.outputDir ++ [39] ++ lit " does not exist")), w3)
        | (false, w3) => renderChart env flags c vv w3

/-- `run` (main.go 77-164). -/
def run (env : Env σ χ ρ) (flags : Flags) (args : List GoString) (w : World σ) :
    Outcome × World σ :=
  match runRender env flags args w with
  | (.error outcome, w1) => (outcome, w1)
  | (.ok out, w1) => runOutput env flags out w1

end Program

/-! ## A concrete run -/

/-- A document with a nested document: `a: {b: 1}`. -/
def docNested : Doc :=
  .ofList [(lit "a", .map (.ofList [(lit "b", .scalar (.number (lit "1")))]))]

/-- The document `a: 5`. -/
def docFive : Doc := .ofList [(lit "a", .scalar (.number (lit "5")))]

/-- The document `a: 7`. -/
def docSeven : Doc := .ofList [(lit "a", .scalar (.number (lit "7")))]

/-- Rendered templates of a chart `c`: three manifests, one of them blank,
the notes and a file of helpers. -/
def demoOut : StringMap where
  entries :=
    [(lit "c/templates/b.yaml", lit "y: 2\n"),
     (lit "c/templates/NOTES.txt", lit "note"),
     (lit "c/templates/_helpers.tpl", lit "h"),
     (lit "c/templates/blank.yaml", lit " \n"),
     (lit "c/templates/a.yaml", lit "x: 1\n")]
  nodup := by decide

/-- Surroundings without state: standard input holds nothing, no file can be
read, every directory exists but none can be made, the values parse to the
empty document and every chart renders to `demoOut`. -/
def demoEnv : Env Unit Unit Unit where
  readStdin := fun s => (.ok [], s)
  readFile := fun _ s => (.error (lit "no such file or directory"), s)
  stat := fun _ s => (.ok, s)
  mkdirAll := fun _ _ s => (some (lit "permission denied"), s)
  create := fun _ s => (none, s)
  writeString := fun _ _ s => (none, s)
  close := fun _ s => s
  now := fun s => (0, s)
  load := fun _ s => (.ok (), s)
  yamlUnmarshal := fun _ => .ok .nil
  yamlMarshal := fun _ => .ok []
  parseInto := fun _ base => .ok base
  parseIntoString := fun _ base => .ok base
  toRenderValues := fun _ _ _ => .ok ()
  render := fun _ _ => .ok demoOut

/-- The flags at their defaults (main.go 62-70). -/
def defaultFlags : Flags where
  setVals := []
  setStringVals := []
  valsFiles := []
  flagVerbose := false
  showNotes := false
  releaseName := lit "RELEASE-NAME"
  namespaceName := lit "NAMESPACE"
  renderFiles := []
  outputDir := []

/-- The world before anything has happened. -/
def startWorld : World Unit := { state := (), trace := [] }

/-- The default flags with the notes and the helpers of the demo chart named
for execution, and a name that no artifact has. -/
def restrictedFlags : Flags :=
  { defaultFlags with
    renderFiles := [lit "c/templates/_helpers.tpl", lit "c/templates/NOTES.txt", lit "missing"] }

/-- The default flags with the output directory `out`. -/
def dirFlags : Flags := { defaultFlags with outputDir := lit "out" }

/-- The render output `b.yaml` (empty) and `a.yaml` (`x`). -/
def twoOut : StringMap where
  entries := [(lit "b.yaml", lit ""), (lit "a.yaml", lit "x")]
  nodup := by decide

/-- The demo surroundings with directories that can be made. -/
def writableEnv : Env Unit Unit Unit := { demoEnv with mkdirAll := fun _ _ s => (none, s) }

/-- Surroundings with the value files `five` (the document `a: 5`) and
`seven` (`a: 7`): a file holds its own name, the parser knows the two names,
and a document is marshaled to the text of the number at `a`. -/
def valuesEnv : Env Unit Unit Unit :=
  { demoEnv with
    readFile := fun path s => (.ok path, s)
    yamlUnmarshal := fun bytes =>
      if bytes = lit "five" then .ok docFive
      else if bytes = lit "seven" then .ok docSeven
      else .error (lit "yaml: unknown document")
    yamlMarshal := fun d =>
      match lookup (lit "a") d with
      | some (.scalar (.number text)) => .ok text
      | _ => .ok [] }

/-- Rendered templates with a single blank manifest. -/
def blankOut : StringMap where
  entries := [(lit "c/templates/blank.yaml", lit " \n")]
  nodup := by decide

/-- The demo surroundings with a chart that renders to `blankOut`. -/
def blankEnv : Env Unit Unit Unit := { demoEnv with render := fun _ _ => .ok blankOut }

/-- The flags with the output directory `out` and the blank manifest named
for execution. -/
def blankOnlyFlags : Flags :=
  { dirFlags with renderFiles := [lit "c/templates/blank.yaml"] }

/-- The demo surroundings with a chart that renders to `twoOut`. -/
def twoEnv : Env Unit Unit Unit := { demoEnv with render := fun _ _ => .ok twoOut }

set_option maxRecDepth 20000

/-! ## Merging -/

theorem lookup_assign_self (k : GoString) (v : Value) :
    ∀ d : Doc, lookup k (assign k v d) = some v
  | .nil => by simp [assign, lookup]
  | .cons k' v' rest => by
    have ih := lookup_assign_self k v rest
    by_cases h : k' = k
    · simp [assign, lookup, h]
    · simp [assign, lookup, h, ih]

theorem lookup_assign_ne (k k' : GoString) (v : Value) (hne : k' ≠ k) :
    ∀ d : Doc, lookup k' (assign k v d) = lookup k' d
  | .nil => by simp [assign, lookup, Ne.symm hne]
  | .cons k0 v0 rest => by
    have ih := lookup_assign_ne k k' v hne rest
    by_cases h : k0 = k
    · subst h
      simp [assign, lookup, Ne.symm hne]
    · by_cases h' : k0 = k'
      · subst h'
        simp [assign, lookup, h]
      · simp [assign, lookup, h, h', ih]

theorem mergeValues_cons (dest : Doc) (k : GoString) (v : Value) (rest : Doc) :
    mergeValues dest (.cons k v rest) = mergeValues (mergeEntry dest k v) rest := by
  cases v <;> simp only [mergeValues, mergeEntry]

theorem lookup_mergeEntry_ne (dest : Doc) (k k' : GoString) (v : Value) (hne : k' ≠ k) :
    lookup k' (mergeEntry dest k v) = lookup k' dest := by
  unfold mergeEntry
  split
  · exact lookup_assign_ne k k' v hne dest
  · split
    · split <;> exact lookup_assign_ne k k' _ hne dest
    · exact lookup_assign_ne k k' v hne dest

theorem lookup_mergeValues_not_mem (k : GoString) :
    ∀ (src dest : Doc), k ∉ src.keys → lookup k (mergeValues dest src) = lookup k dest
  | .nil, dest, _ => rfl
  | .cons k0 v0 rest, dest, h => by
    simp only [Doc.keys, List.mem_cons, not_or] at h
    rw [mergeValues_cons, lookup_mergeValues_not_mem k rest _ h.2]
    exact lookup_mergeEntry_ne dest k0 k v0 h.1

theorem lookup_eq_none_iff (k : GoString) :
    ∀ m : Doc, lookup k m = none ↔ k ∉ m.keys
  | .nil => by simp [lookup, Doc.keys]
  | .cons k0 v0 rest => by
    have ih := lookup_eq_none_iff k rest
    by_cases h : k0 = k
    · simp [lookup, Doc.keys, h]
    · simp [lookup, Doc.keys, h, ih, Ne.symm h]

theorem lookup_mergeEntry_self (dest : Doc) (k : GoString) (v : Value) :
    lookup k (mergeEntry dest k v) = some (mergedAt (lookup k dest) v) := by
  unfold mergeEntry
  split
  · next h => rw [lookup_assign_self, h]; rfl
  · next d h =>
    split
    · next nextMap =>
      split
      · next h' => rw [h'] at h; cases h
      · next destMap h' => rw [lookup_assign_self, h']; rfl
      · next d' h' hd =>
        rw [lookup_assign_self, hd]
        cases d' with
        | map m => exact absurd rfl (h' m)
        | scalar s => rfl
        | seq s => rfl
    · next hv =>
      rw [lookup_assign_self, h]
      cases v with
      | map m => exact absurd rfl (hv m)
      | scalar s => cases d <;> rfl
      | seq s => cases d <;> rfl

theorem lookup_mergeValues_mem (k : GoString) (v : Value) :
    ∀ (src dest : Doc), keysNodup src → lookup k src = some v →
      lookup k (mergeValues dest src) = some (mergedAt (lookup k dest) v)
  | .nil, _, _, h => by simp [lookup] at h
  | .cons k0 v0 rest, dest, hnd, h => by
    unfold keysNodup at hnd
    simp only [Doc.keys, List.nodup_cons] at hnd
    rw [mergeValues_cons]
    by_cases hk : k0 = k
    · subst hk
      simp only [lookup, if_true] at h
      cases h
      rw [lookup_mergeValues_not_mem k0 rest _ hnd.1]
      exact lookup_mergeEntry_self dest k0 v
    · simp only [lookup, hk, if_false] at h
      rw [lookup_mergeValues_mem k v rest _ hnd.2 h,
        lookup_mergeEntry_ne dest k0 k v0 (Ne.symm hk)]

/-- The loop of `vals` over the value files folds the parsed documents into
the accumulator with `mergeValues`. -/
theorem valsFileLoop_eq_readDocs {σ χ ρ : Type} (env : Env σ χ ρ) :
    ∀ (files : List GoString) (base : Doc) (w : World σ),
      valsFileLoop env files base w =
        ((readDocs env files w).1.map (fun docs => docs.foldl mergeValues base),
          (readDocs env files w).2)
  | [], base, w => rfl
  | filePath :: rest, base, w => by
    have ih := fun b w1 => valsFileLoop_eq_readDocs env rest b w1
    simp only [valsFileLoop, readDocs]
    rcases readValues env filePath w with ⟨r, w1⟩
    cases r with
    | error err => rfl
    | ok bytes =>
      dsimp only
      cases env.yamlUnmarshal bytes with
      | error err => rfl
      | ok currentMap =>
        dsimp only
        rw [ih]
        rcases readDocs env rest w1 with ⟨r2, w2⟩
        cases r2 <;> rfl

theorem lookup_foldl_mergeValues_not_mem (k : GoString) :
    ∀ (docs : List Doc) (base : Doc), (∀ d ∈ docs, lookup k d = none) →
      lookup k (docs.foldl (fun b c => mergeValues b c) base) = lookup k base
  | [], _, _ => rfl
  | d :: rest, base, h => by
    rw [List.foldl_cons, lookup_foldl_mergeValues_not_mem k rest _
      (fun d' hd' => h d' (List.mem_cons_of_mem _ hd'))]
    exact lookup_mergeValues_not_mem k d base
      ((lookup_eq_none_iff k d).1 (h d (List.mem_cons_self _ _)))

theorem mergedAt_of_not_isMap (d : Option Value) (v : Value) (hv : v.isMap = false) :
    mergedAt d v = v := by
  cases v with
  | map m => simp [Value.isMap] at hv
  | scalar s => unfold mergedAt; split <;> first | rfl | contradiction
  | seq s => unfold mergedAt; split <;> first | rfl | contradiction

theorem lookup_valsAccumulator_last (pre post : List Doc) (d : Doc) (k : GoString)
    (v : Value) (hd : keysNodup d) (hk : lookup k d = some v) (hv : v.isMap = false)
    (hpost : ∀ d' ∈ post, lookup k d' = none) :
    lookup k (valsAccumulator (pre ++ d :: post)) = some v := by
  unfold valsAccumulator
  rw [List.foldl_append, List.foldl_cons, lookup_foldl_mergeValues_not_mem k post _ hpost,
    lookup_mergeValues_mem k v d _ hd hk, mergedAt_of_not_isMap _ v hv]

/-! ## The claims on merging -/

/-- C1: `mergeValues(dest, src)` agrees key by key with the merge rules. For
a map `src` (distinct keys) and every key `k`: (1) a key that `src` lacks
keeps what `dest` had, absent if absent; (2) a key of `src` that `dest` lacks
gets the value of `src`; (3) a key at which both hold maps gets the merge of
the two maps; (4) in every other case of a key of both, where the value of
`src` or that of `dest` is no map, the key gets the value of `src`. -/
theorem mergeValues_key_by_key (dest src : Doc) (hsrc : keysNodup src) (k : GoString) :
    (lookup k src = none → lookup k (mergeValues dest src) = lookup k dest) ∧
    (∀ v, lookup k src = some v → lookup k dest = none →
      lookup k (mergeValues dest src) = some v) ∧
    (∀ nextMap destMap, lookup k src = some (.map nextMap) →
      lookup k dest = some (.map destMap) →
      lookup k (mergeValues dest src) = some (.map (mergeValues destMap nextMap))) ∧
    (∀ v d, lookup k src = some v → lookup k dest = some d →
      (v.isMap = false ∨ d.isMap = false) →
      lookup k (mergeValues dest src) = some v) := by
  refine ⟨?_, ?_, ?_, ?_⟩
  · intro h
    exact lookup_mergeValues_not_mem k src dest ((lookup_eq_none_iff k src).1 h)
  · intro v hv hd
    rw [lookup_mergeValues_mem k v src dest hsrc hv, hd]
    rfl
  · intro nextMap destMap hv hd
    rw [lookup_mergeValues_mem k _ src dest hsrc hv, hd]
    rfl
  · intro v d hv hd hor
    rw [lookup_mergeValues_mem k v src dest hsrc hv, hd]
    cases v <;> cases d <;> first | rfl | (simp [Value.isMap] at hor)

/-- C1 at `dest = {a: {b: 1}}`, `src = {a: 5}`: the key `a` ends up with `5`,
and the whole result is `{a: 5}`. -/
theorem mergeValues_key_by_key_witness :
    keysNodup docFive ∧
    lookup (lit "a") (mergeValues docNested docFive) = some (.scalar (.number (lit "5"))) ∧
    mergeValues docNested docFive = docFive :=
  ⟨by unfold keysNodup; decide,
   (mergeValues_key_by_key docNested docFive (by unfold keysNodup; decide) (lit "a")).2.2.2
      (.scalar (.number (lit "5")))
      (.map (.ofList [(lit "b", .scalar (.number (lit "1")))])) rfl rfl (Or.inl rfl),
   rfl⟩

/-- C10: merging with the empty document is the identity,
`mergeValues(D, {}) = D` for every document `D`. -/
theorem mergeValues_empty_src (D : Doc) : mergeValues D .nil = D := by
  cases D <;> rfl

/-- What `vals` returns, given the documents its file loop has parsed. -/
theorem vals_eq_readDocs {σ χ ρ : Type} (env : Env σ χ ρ)
    (valueFiles values stringValues : List GoString) (w : World σ) :
    vals env valueFiles values stringValues w =
      ((readDocs env valueFiles w).1.bind (fun docs =>
          (valsSetLoop env.parseInto (lit "--set") values (valsAccumulator docs)).bind
            (fun base1 =>
              (valsSetLoop env.parseIntoString (lit "--set-string") stringValues base1).bind
                env.yamlMarshal)),
        (readDocs env valueFiles w).2) := by
  simp only [vals, valsFileLoop_eq_readDocs]
  rcases readDocs env valueFiles w with ⟨r, w1⟩
  cases r with
  | error err => rfl
  | ok docs =>
    simp only [Except.map, Except.bind]
    have hacc : List.foldl mergeValues Doc.nil docs = valsAccumulator docs := rfl
    rw [hacc]
    cases valsSetLoop env.parseInto (lit "--set") values (valsAccumulator docs) with
    | error err => rfl
    | ok base1 =>
      dsimp only
      cases valsSetLoop env.parseIntoString (lit "--set-string") stringValues base1 with
      | error err => rfl
      | ok base2 => rfl

/-- C2: `vals` folds the documents parsed from the value files, in list
order, into an accumulator that starts empty, each as the `src` of
`mergeValues`, and returns what the overrides and the marshaling make of that
accumulator; in the accumulator every key whose last defining document gives
it a value that is no map holds exactly that value; so for two documents that
give a key different scalars, the order `[f1, f2]` yields the scalar of `f2`,
the order `[f2, f1]` that of `f1`, and the two results differ. -/
theorem vals_later_file_wins :
    (∀ {σ χ ρ : Type} (env : Env σ χ ρ) (valueFiles values stringValues : List GoString)
        (w : World σ),
      vals env valueFiles values stringValues w =
        ((readDocs env valueFiles w).1.bind (fun docs =>
            (valsSetLoop env.parseInto (lit "--set") values (valsAccumulator docs)).bind
              (fun base1 =>
                (valsSetLoop env.parseIntoString (lit "--set-string") stringValues base1).bind
                  env.yamlMarshal)),
          (readDocs env valueFiles w).2) ∧
      (values = [] → stringValues = [] →
        vals env valueFiles values stringValues w =
          ((readDocs env valueFiles w).1.bind (fun docs =>
              env.yamlMarshal (valsAccumulator docs)),
            (readDocs env valueFiles w).2)) ∧
      valsFileLoop env valueFiles .nil w =
        ((readDocs env valueFiles w).1.map valsAccumulator, (readDocs env valueFiles w).2)) ∧
    (∀ (pre post : List Doc) (d : Doc) (k : GoString) (v : Value),
      keysNodup d → lookup k d = some v → v.isMap = false →
      (∀ d' ∈ post, lookup k d' = none) →
      lookup k (valsAccumulator (pre ++ d :: post)) = some v) ∧
    (∀ (f1 f2 : Doc) (k : GoString) (a b : Scalar),
      keysNodup f1 → keysNodup f2 →
      lookup k f1 = some (.scalar a) → lookup k f2 = some (.scalar b) → a ≠ b →
      lookup k (valsAccumulator [f1, f2]) = some (.scalar b) ∧
      lookup k (valsAccumulator [f2, f1]) = some (.scalar a) ∧
      valsAccumulator [f1, f2] ≠ valsAccumulator [f2, f1]) := by
  refine ⟨?_, ?_, ?_⟩
  · intro σ χ ρ env valueFiles values stringValues w
    refine ⟨vals_eq_readDocs env valueFiles values stringValues w, ?_,
      valsFileLoop_eq_readDocs env valueFiles .nil w⟩
    intro hv hs
    subst hv
    subst hs
    rw [vals_eq_readDocs]
    rfl
  · intro pre post d k v hd hk hv hpost
    exact lookup_valsAccumulator_last pre post d k v hd hk hv hpost
  · intro f1 f2 k a b h1 h2 hk1 hk2 hab
    have e12 : lookup k (valsAccumulator [f1, f2]) = some (.scalar b) :=
      lookup_valsAccumulator_last [f1] [] f2 k _ h2 hk2 rfl (by simp)
    have e21 : lookup k (valsAccumulator [f2, f1]) = some (.scalar a) :=
      lookup_valsAccumulator_last [f2] [] f1 k _ h1 hk1 rfl (by simp)
    refine ⟨e12, e21, ?_⟩
    intro heq
    rw [heq, e21] at e12
    injection e12 with e
    injection e with e
    exact hab e

/-- C2 at the files `five` (`a: 5`) and `seven` (`a: 7`): the later file
decides `a`, in the accumulator and in what `vals` returns. -/
theorem vals_later_file_wins_witness :
    keysNodup docFive ∧ keysNodup docSeven ∧
    (readDocs valuesEnv [lit "five", lit "seven"] startWorld).1 = .ok [docFive, docSeven] ∧
    (readDocs valuesEnv [lit "seven", lit "five"] startWorld).1 = .ok [docSeven, docFive] ∧
    (vals valuesEnv [lit "five", lit "seven"] [] [] startWorld).1 = .ok (lit "7") ∧
    (vals valuesEnv [lit "seven", lit "five"] [] [] startWorld).1 = .ok (lit "5") ∧
    lookup (lit "a") (valsAccumulator [docFive, docSeven]) =
      some (.scalar (.number (lit "7"))) ∧
    lookup (lit "a") (valsAccumulator [docSeven, docFive]) =
      some (.scalar (.number (lit "5"))) ∧
    valsAccumulator [docFive, docSeven] ≠ valsAccumulator [docSeven, docFive] :=
  ⟨by unfold keysNodup; decide, by unfold keysNodup; decide, rfl, rfl,
   (congrArg Prod.fst
     ((vals_later_file_wins.1 valuesEnv [lit "five", lit "seven"] [] [] startWorld).2.1
       rfl rfl)).trans rfl,
   (congrArg Prod.fst
     ((vals_later_file_wins.1 valuesEnv [lit "seven", lit "five"] [] [] startWorld).2.1
       rfl rfl)).trans rfl,
   vals_later_file_wins.2.2 docFive docSeven (lit "a") (.number (lit "5")) (.number (lit "7"))
     (by unfold keysNodup; decide) (by unfold keysNodup; decide) rfl rfl (by decide)⟩

/-! ## The record of a run -/

section Trace
variable {σ χ ρ : Type}

theorem printCalls_append (a b : List Event) :
    printCalls (a ++ b) = printCalls a ++ printCalls b := by
  simp [printCalls, List.filterMap_append]

theorem printCalls_println (s : GoString) (w : World σ) :
    printCalls (println s w).trace = printCalls w.trace := by
  simp [println, World.log, printCalls, List.filterMap_append]

theorem printCalls_printf (s : GoString) (w : World σ) :
    printCalls (printf s w).trace = printCalls w.trace := by
  simp [printf, World.log, printCalls, List.filterMap_append]

theorem printCalls_ensureDirectoryForFile (env : Env σ χ ρ) (file : GoString) (w : World σ) :
    printCalls (ensureDirectoryForFile env file w).2.trace = printCalls w.trace := by
  simp only [ensureDirectoryForFile, osStat]
  cases (env.stat (pathDir file) w.state).1 <;>
    simp [osMkdirAll, printCalls, List.filterMap_append]

theorem printCalls_writeToFile (env : Env σ χ ρ) (outputDir name data : GoString)
    (w : World σ) :
    printCalls (writeToFile env outputDir name data w).2.trace = printCalls w.trace := by
  have h0 : printCalls (w.log (.writeToFile outputDir name data)).trace = printCalls w.trace := by
    simp [World.log, printCalls, List.filterMap_append]
  have h1 := printCalls_ensureDirectoryForFile env (pathJoin [outputDir, name])
    (w.log (.writeToFile outputDir name data))
  simp only [writeToFile]
  cases he : ensureDirectoryForFile env (pathJoin [outputDir, name])
    (w.log (.writeToFile outputDir name data)) with
  | mk r w1 =>
    rw [he, h0] at h1
    dsimp only at h1
    cases r with
    | some err => exact h1
    | none =>
      simp only [osCreate]
      cases (env.create (pathJoin [outputDir, name]) w1.state).1 with
      | some err =>
        simp only [printCalls_append, h1]
        simp [printCalls]
      | none =>
        simp only [fileWriteString]
        cases (env.writeString (pathJoin [outputDir, name]) _ _).1 <;>
          (simp only [fileClose, printf, World.log, printCalls_append, h1]
           simp [printCalls])

theorem printCalls_printOutput (env : Env σ χ ρ) (flags : Flags) (name data : GoString)
    (w : World σ) :
    printCalls (printOutput env flags name data w).trace =
      printCalls w.trace ++ [(name, data)] := by
  have h0 : printCalls (w.log (.printOutput name data)).trace =
      printCalls w.trace ++ [(name, data)] := by
    simp [World.log, printCalls, List.filterMap_append]
  have h1 := printCalls_writeToFile env flags.outputDir name data
    (w.log (.printOutput name data))
  simp only [printOutput]
  split
  · split
    · cases hw : writeToFile env flags.outputDir name data (w.log (.printOutput name data))
        with
      | mk r w1 =>
        rw [hw] at h1
        cases r with
        | some err => simpa [printCalls_println, h0] using h1
        | none => simpa [h0] using h1
    · exact h0
  · rw [printCalls_println, printCalls_printf, h0]

theorem printCalls_printOnly (env : Env σ χ ρ) (flags : Flags) (out : StringMap) :
    ∀ (names : List GoString) (w : World σ),
      printCalls (printOnly env flags out names w).trace =
        printCalls w.trace ++ selectOnly flags out names
  | [], w => by simp [printOnly, selectOnly]
  | name :: rest, w => by
    simp only [printOnly, selectOnly]
    split
    · rw [printCalls_printOnly env flags out rest, printCalls_printOutput]
      simp
    · exact printCalls_printOnly env flags out rest w

theorem printCalls_printDefault (env : Env σ χ ρ) (flags : Flags) (out : StringMap) :
    ∀ (names : List GoString) (w : World σ),
      printCalls (printDefault env flags out names w).trace =
        printCalls w.trace ++ selectDefault flags out names
  | [], w => by simp [printDefault, selectDefault]
  | name :: rest, w => by
    simp only [printDefault, selectDefault]
    split
    · exact printCalls_printDefault env flags out rest w
    · split
      · exact printCalls_printDefault env flags out rest w
      · rw [printCalls_printDefault env flags out rest, printCalls_printOutput]
        simp

/-- The calls of `printOutput` that the output part of `run` adds to the
record, and its result: no error. -/
theorem runOutput_calls (env : Env σ χ ρ) (flags : Flags) (out : StringMap) (w : World σ) :
    (runOutput env flags out w).1 = .returned none ∧
    printCalls (runOutput env flags out w).2.trace =
      printCalls w.trace ++ outputCalls flags out := by
  unfold runOutput outputCalls
  dsimp only
  split
  · exact ⟨rfl, printCalls_printOnly env flags out _ w⟩
  · exact ⟨rfl, printCalls_printDefault env flags out _ w⟩

/-- Once the templates are rendered, `run` is its output part. -/
theorem run_eq_runOutput (env : Env σ χ ρ) (flags : Flags) (args : List GoString)
    (w w1 : World σ) (out : StringMap) (h : runRender env flags args w = (.ok out, w1)) :
    run env flags args w = runOutput env flags out w1 := by
  simp [run, h]

end Trace

/-! ## Ordering of strings and sorting -/

theorem strLess_irrefl : ∀ a : GoString, strLess a a = false
  | [] => rfl
  | a :: as => by simp [strLess, strLess_irrefl as]

theorem strLess_trans : ∀ a b c : GoString,
    strLess a b = true → strLess b c = true → strLess a c = true
  | [], [], _, h, _ => by simp [strLess] at h
  | [], _ :: _, [], _, h => by simp [strLess] at h
  | [], _ :: _, _ :: _, _, _ => rfl
  | _ :: _, [], _, h, _ => by simp [strLess] at h
  | _ :: _, _ :: _, [], _, h => by simp [strLess] at h
  | x :: xs, y :: ys, z :: zs, h1, h2 => by
    have ih := strLess_trans xs ys zs
    simp only [strLess] at h1 h2 ⊢
    by_cases hxy : x < y
    · by_cases hyz : y < z
      · simp [lt_trans hxy hyz]
      · by_cases hzy : z < y
        · simp [hyz, hzy] at h2
        · have : y = z := le_antisymm (not_lt.1 hzy) (not_lt.1 hyz)
          subst this
          simp [hxy]
    · by_cases hyx : y < x
      · simp [hxy, hyx] at h1
      · have : x = y := le_antisymm (not_lt.1 hyx) (not_lt.1 hxy)
        subst this
        by_cases hxz : x < z
        · simp [hxz]
        · by_cases hzx : z < x
          · simp [hxz, hzx] at h2
          · simp only [hxy, hxz, hzx, if_false] at h1 h2 ⊢
            exact ih h1 h2

theorem strLess_total : ∀ a b : GoString, a ≠ b → strLess a b = false → strLess b a = true
  | [], [], h, _ => absurd rfl h
  | [], _ :: _, _, h => by simp [strLess] at h
  | _ :: _, [], _, _ => rfl
  | x :: xs, y :: ys, hne, h => by
    have ih := strLess_total xs ys
    simp only [strLess] at h ⊢
    by_cases hxy : x < y
    · simp [hxy] at h
    · by_cases hyx : y < x
      · simp [hyx]
      · have : x = y := le_antisymm (not_lt.1 hyx) (not_lt.1 hxy)
        subst this
        simp only [hxy, if_false] at h ⊢
        exact ih (fun e => hne (by rw [e])) h

/-- The comparison of Go strings is the lexicographic order of the bytes. -/
theorem strLess_iff_lex : ∀ a b : GoString,
    strLess a b = true ↔ List.Lex (fun x y : Byte => x < y) a b
  | [], [] => by simp [strLess]
  | [], _ :: _ => by simp [strLess, List.Lex.nil]
  | _ :: _, [] => by simp [strLess]
  | x :: xs, y :: ys => by
    have ih := strLess_iff_lex xs ys
    simp only [strLess]
    constructor
    · intro h
      by_cases hxy : x < y
      · exact List.Lex.rel hxy
      · by_cases hyx : y < x
        · simp [hxy, hyx] at h
        · have : x = y := le_antisymm (not_lt.1 hyx) (not_lt.1 hxy)
          subst this
          simp only [hxy, if_false] at h
          exact List.Lex.cons (ih.1 h)
    · intro h
      cases h with
      | rel hxy => simp [hxy]
      | cons hl => simp [ih.2 hl]

theorem mem_insertSorted (x y : GoString) :
    ∀ l : List GoString, y ∈ insertSorted x l ↔ y = x ∨ y ∈ l
  | [] => by simp [insertSorted]
  | z :: zs => by
    have ih := mem_insertSorted x y zs
    simp only [insertSorted]
    split
    · simp
    · simp only [List.mem_cons, ih]
      tauto

theorem perm_insertSorted (x : GoString) :
    ∀ l : List GoString, (insertSorted x l).Perm (x :: l)
  | [] => List.Perm.refl _
  | z :: zs => by
    simp only [insertSorted]
    split
    · exact List.Perm.refl _
    · exact ((perm_insertSorted x zs).cons z).trans (List.Perm.swap x z zs)

theorem sortStrings_perm : ∀ l : List GoString, (sortStrings l).Perm l
  | [] => List.Perm.refl _
  | x :: xs => (perm_insertSorted x (sortStrings xs)).trans ((sortStrings_perm xs).cons x)

theorem pairwise_insertSorted (x : GoString) :
    ∀ l : List GoString, x ∉ l → l.Pairwise (fun a b => strLess a b = true) →
      (insertSorted x l).Pairwise (fun a b => strLess a b = true)
  | [], _, _ => by simp [insertSorted]
  | z :: zs, hx, hp => by
    have ih := pairwise_insertSorted x zs
    simp only [List.mem_cons, not_or] at hx
    rw [List.pairwise_cons] at hp
    simp only [insertSorted]
    split
    · next hlt =>
      refine List.Pairwise.cons ?_ (List.Pairwise.cons hp.1 hp.2)
      intro a ha
      rcases List.mem_cons.1 ha with rfl | ha
      · exact hlt
      · exact strLess_trans _ _ _ hlt (hp.1 a ha)
    · next hlt =>
      refine List.Pairwise.cons ?_ (ih hx.2 hp.2)
      intro a ha
      rcases (mem_insertSorted x a zs).1 ha with rfl | ha
      · exact strLess_total _ _ hx.1 (by simpa using hlt)
      · exact hp.1 a ha

theorem sortStrings_sorted : ∀ l : List GoString, l.Nodup →
    (sortStrings l).Pairwise (fun a b => strLess a b = true)
  | [], _ => List.Pairwise.nil
  | x :: xs, h => by
    rw [List.nodup_cons] at h
    exact pairwise_insertSorted x _
      (fun hm => h.1 ((sortStrings_perm xs).mem_iff.1 hm))
      (sortStrings_sorted xs h.2)

/-- The result of `sortStrings` does not depend on the order in which the
distinct strings are handed to it (the order of a `range` over a map). -/
theorem sortStrings_eq_of_perm (l1 l2 : List GoString) (h : l1.Perm l2) (hn : l1.Nodup) :
    sortStrings l1 = sortStrings l2 := by
  haveI : IsAntisymm GoString (fun a b => strLess a b = true) :=
    ⟨fun a b hab hba => by
      have := strLess_trans a b a hab hba
      rw [strLess_irrefl] at this
      exact Bool.noConfusion this⟩
  exact List.eq_of_perm_of_sorted
    (((sortStrings_perm l1).trans h).trans (sortStrings_perm l2).symm)
    (sortStrings_sorted l1 hn) (sortStrings_sorted l2 (h.nodup_iff.1 hn))

/-! ## Selection of the output -/

section Select
variable {σ χ ρ : Type}

theorem inList_iff (needle : GoString) :
    ∀ haystack : List GoString, inList needle haystack = true ↔ needle ∈ haystack
  | [] => by simp [inList]
  | h :: rest => by
    have ih := inList_iff needle rest
    by_cases e : h = needle
    · simp [inList, e]
    · simp [inList, e, ih, Ne.symm e]

theorem selectOnly_eq (flags : Flags) (out : StringMap) :
    ∀ names : List GoString,
      selectOnly flags out names =
        (names.filter (fun n => inList n flags.renderFiles)).map (fun n => (n, out.get n))
  | [] => rfl
  | name :: rest => by
    simp only [selectOnly, List.filter_cons]
    split <;> simp [selectOnly_eq flags out rest]

theorem selectDefault_eq (flags : Flags) (out : StringMap) :
    ∀ names : List GoString,
      selectDefault flags out names =
        (names.filter (fun n =>
          !(!flags.showNotes && decide (filepathBase n = lit "NOTES.txt")) &&
          !hasPrefix (filepathBase n) (lit "_"))).map (fun n => (n, out.get n))
  | [] => rfl
  | name :: rest => by
    simp only [selectDefault, List.filter_cons]
    split
    · next h => simp [h, selectDefault_eq flags out rest]
    · next h =>
      split
      · next h2 => simp [h2, selectDefault_eq flags out rest]
      · next h2 => simp [h, h2, selectDefault_eq flags out rest]

theorem StringMap.get_of_mem (out : StringMap) (name data : GoString)
    (h : (name, data) ∈ out.entries) : out.get name = data := by
  rcases out with ⟨entries, nodup⟩
  unfold StringMap.get
  dsimp only
  induction entries with
  | nil => simp at h
  | cons e rest ih =>
    simp only [List.map_cons, List.nodup_cons] at nodup
    rcases List.mem_cons.1 h with rfl | h
    · simp [List.find?]
    · have hne : e.1 ≠ name := by
        intro heq
        apply nodup.1
        rw [heq]
        exact List.mem_map.2 ⟨(name, data), h, rfl⟩
      simp only [List.find?, hne, decide_False]
      exact ih nodup.2 h

theorem StringMap.mem_of_key (out : StringMap) (name : GoString) (h : name ∈ out.keys) :
    (name, out.get name) ∈ out.entries := by
  unfold StringMap.keys at h
  rcases List.mem_map.1 h with ⟨⟨n, d⟩, hmem, rfl⟩
  rw [StringMap.get_of_mem out n d hmem]
  exact hmem

theorem StringMap.mem_entries_iff (out : StringMap) (name data : GoString) :
    (name, data) ∈ out.entries ↔ name ∈ out.keys ∧ data = out.get name := by
  constructor
  · intro h
    exact ⟨List.mem_map.2 ⟨(name, data), h, rfl⟩, (StringMap.get_of_mem out name data h).symm⟩
  · rintro ⟨h, rfl⟩
    exact StringMap.mem_of_key out name h

theorem mem_sortStrings (l : List GoString) (x : GoString) : x ∈ sortStrings l ↔ x ∈ l :=
  (sortStrings_perm l).mem_iff

theorem outputCalls_names_sublist (flags : Flags) (out : StringMap) :
    ((outputCalls flags out).map Prod.fst).Sublist (sortStrings out.keys) := by
  unfold outputCalls
  split
  · rw [selectOnly_eq, List.map_map]
    simp only [Function.comp_def, List.map_id']
    exact List.filter_sublist _
  · rw [selectDefault_eq, List.map_map]
    simp only [Function.comp_def, List.map_id']
    exact List.filter_sublist _

theorem outputCalls_names_sorted (flags : Flags) (out : StringMap) :
    ((outputCalls flags out).map Prod.fst).Pairwise (fun a b => strLess a b = true) :=
  (sortStrings_sorted out.keys out.nodup).sublist (outputCalls_names_sublist flags out)

theorem outputCalls_nodup (flags : Flags) (out : StringMap) : (outputCalls flags out).Nodup := by
  have h := outputCalls_names_sorted flags out
  have hn : ((outputCalls flags out).map Prod.fst).Nodup := by
    refine h.imp ?_
    intro a b hab heq
    rw [heq, strLess_irrefl] at hab
    exact Bool.noConfusion hab
  exact List.Nodup.of_map _ hn

theorem printCalls_readValues (env : Env σ χ ρ) (filePath : GoString) (w : World σ) :
    printCalls (readValues env filePath w).2.trace = printCalls w.trace := by
  unfold readValues
  split <;> (simp only [printCalls_append]; simp [printCalls])

theorem printCalls_valsFileLoop (env : Env σ χ ρ) :
    ∀ (files : List GoString) (base : Doc) (w : World σ),
      printCalls (valsFileLoop env files base w).2.trace = printCalls w.trace
  | [], _, _ => rfl
  | filePath :: rest, base, w => by
    have h := printCalls_readValues env filePath w
    simp only [valsFileLoop]
    cases hr : readValues env filePath w with
    | mk r w1 =>
      rw [hr] at h
      cases r with
      | error err => exact h
      | ok bytes =>
        dsimp only
        cases env.yamlUnmarshal bytes with
        | error err => exact h
        | ok currentMap =>
          dsimp only
          rw [printCalls_valsFileLoop env rest, ← h]

theorem printCalls_vals (env : Env σ χ ρ) (valueFiles values stringValues : List GoString)
    (w : World σ) :
    printCalls (vals env valueFiles values stringValues w).2.trace = printCalls w.trace := by
  have h := printCalls_valsFileLoop env valueFiles .nil w
  simp only [vals]
  cases hr : valsFileLoop env valueFiles .nil w with
  | mk r w1 =>
    rw [hr] at h
    cases r with
    | error err => exact h
    | ok base =>
      dsimp only
      cases valsSetLoop env.parseInto (lit "--set") values base with
      | error err => exact h
      | ok base1 =>
        dsimp only
        cases valsSetLoop env.parseIntoString (lit "--set-string") stringValues base1 with
        | error err => exact h
        | ok base2 => exact h

theorem printCalls_outputDirMissing (env : Env σ χ ρ) (flags : Flags) (w : World σ) :
    printCalls (outputDirMissing env flags w).2.trace = printCalls w.trace := by
  unfold outputDirMissing
  split
  · simp only [osStat]
    cases (env.stat flags.outputDir w.state).1 <;>
      (simp only [printCalls_append]; simp [printCalls])
  · rfl

theorem printCalls_renderChart (env : Env σ χ ρ) (flags : Flags) (c : χ) (vv : GoString)
    (w : World σ) :
    printCalls (renderChart env flags c vv w).2.trace = printCalls w.trace := by
  have h : printCalls (if flags.flagVerbose then
      println vv (println (lit "---\n# merged values") w) else w).trace = printCalls w.trace := by
    split
    · rw [printCalls_println, printCalls_println]
    · rfl
  simp only [renderChart]
  cases env.toRenderValues c vv _ with
  | error err => exact h
  | ok renderVals =>
    dsimp only
    cases env.render c renderVals with
    | error err => exact h
    | ok out => exact h

theorem printCalls_runRender (env : Env σ χ ρ) (flags : Flags) (args : List GoString)
    (w : World σ) :
    printCalls (runRender env flags args w).2.trace = printCalls w.trace := by
  cases args with
  | nil => rfl
  | cons chart rest =>
    simp only [runRender]
    cases (env.load chart w.state).1 with
    | error err => rfl
    | ok c =>
      dsimp only
      have h := printCalls_vals env flags.valsFiles flags.setVals flags.setStringVals
        { w with state := (env.load chart w.state).2 }
      cases hr : vals env flags.valsFiles flags.setVals flags.setStringVals
        { w with state := (env.load chart w.state).2 } with
      | mk r w2 =>
        rw [hr] at h
        dsimp only at h
        cases r with
        | error err => exact h
        | ok vv =>
          dsimp only
          have h3 := printCalls_outputDirMissing env flags w2
          cases hm : outputDirMissing env flags w2 with
          | mk missing w3 =>
            rw [hm] at h3
            dsimp only at h3
            cases missing with
            | true => exact h3.trans h
            | false => exact (printCalls_renderChart env flags c vv w3).trans (h3.trans h)

/-- The calls of `printOutput` of a run that gets as far as the rendered
templates `out` are those for `out`, and the run returns no error. -/
theorem run_calls (env : Env σ χ ρ) (flags : Flags) (args : List GoString)
    (w w1 : World σ) (out : StringMap) (h : runRender env flags args w = (.ok out, w1)) :
    (run env flags args w).1 = .returned none ∧
    printCalls (run env flags args w).2.trace = printCalls w.trace ++ outputCalls flags out := by
  have h1 := printCalls_runRender env flags args w
  rw [h] at h1
  rw [run_eq_runOutput env flags args w w1 out h, ← h1]
  exact runOutput_calls env flags out w1

end Select

/-! ## The blank test -/

theorem starClosure_perlSpace_sound :
    ∀ (fuel : Nat) (p q : Pos),
      q ∈ starClosure (fun r => Regex.ends .perlSpace r) fuel p →
      ∃ pre : GoString, p.2 = pre ++ q.2 ∧ ∀ c ∈ pre, isPerlSpace c = true
  | 0, p, q, h => by
    simp only [starClosure, List.mem_singleton] at h
    subst h
    exact ⟨[], rfl, by simp⟩
  | fuel + 1, p, q, h => by
    simp only [starClosure, List.mem_cons, List.mem_flatMap, List.mem_filter] at h
    rcases h with rfl | ⟨r, ⟨hr, _⟩, hq⟩
    · exact ⟨[], rfl, by simp⟩
    · rcases p with ⟨n, s⟩
      cases s with
      | nil => simp [Regex.ends] at hr
      | cons c rest =>
        simp only [Regex.ends] at hr
        by_cases hc : isPerlSpace c = true
        · simp only [hc, if_true, List.mem_singleton] at hr
          subst hr
          rcases starClosure_perlSpace_sound fuel _ q hq with ⟨pre, hpre, hall⟩
          refine ⟨c :: pre, by simpa using hpre, ?_⟩
          intro x hx
          rcases List.mem_cons.1 hx with rfl | hx
          · exact hc
          · exact hall x hx
        · simp [hc] at hr

theorem starClosure_perlSpace_complete :
    ∀ (s : GoString) (n fuel : Nat), s.length ≤ fuel → (∀ c ∈ s, isPerlSpace c = true) →
      (n + s.length, ([] : GoString)) ∈
        starClosure (fun r => Regex.ends .perlSpace r) fuel (n, s)
  | [], n, fuel, _, _ => by
    cases fuel <;> simp [starClosure]
  | c :: rest, n, 0, h, _ => by simp at h
  | c :: rest, n, fuel + 1, h, hall => by
    have ih := starClosure_perlSpace_complete rest (n + 1) fuel
      (by simpa using h) (fun x hx => hall x (List.mem_cons_of_mem _ hx))
    have hc : isPerlSpace c = true := hall c (List.mem_cons_self _ _)
    simp only [starClosure, List.mem_cons, List.mem_flatMap, List.mem_filter]
    right
    refine ⟨(n + 1, rest), ⟨by simp [Regex.ends, hc], by simp⟩, ?_⟩
    have e : n + (c :: rest).length = n + 1 + rest.length := by
      simp only [List.length_cons]; omega
    rw [e]
    exact ih

/-- The text matches `whitespaceRegex` exactly when each of its bytes is one
of tab, line feed, form feed, carriage return and space. -/
theorem whitespaceRegex_matchString (text : GoString) :
    whitespaceRegex.matchString text = true ↔ ∀ c ∈ text, isPerlSpace c = true := by
  simp only [Regex.matchString, whitespaceRegex, List.any_eq_true, List.mem_range,
    Bool.not_eq_true', List.isEmpty_eq_false]
  constructor
  · rintro ⟨i, _, hne⟩
    rcases List.exists_mem_of_ne_nil _ hne with ⟨q, hq⟩
    simp only [Regex.ends, List.mem_flatMap] at hq
    rcases hq with ⟨a, ha, b, hb, hq⟩
    by_cases hi : i = 0
    · subst hi
      simp only [if_true, List.mem_singleton] at ha
      subst ha
      rcases starClosure_perlSpace_sound _ _ b hb with ⟨pre, hpre, hall⟩
      by_cases hb2 : b.2 = []
      · simp only [List.drop_zero, hb2, List.append_nil] at hpre
        rw [hpre]
        exact hall
      · simp [hb2] at hq
    · simp [hi] at ha
  · intro hall
    refine ⟨0, by omega, ?_⟩
    apply List.ne_nil_of_mem (a := (0 + text.length, ([] : GoString)))
    simp only [Regex.ends, List.mem_flatMap, if_true, List.mem_singleton, exists_eq_left,
      List.drop_zero]
    refine ⟨(0 + text.length, []), ?_, by simp⟩
    exact starClosure_perlSpace_complete text 0 text.length (Nat.le_refl _) hall

/-! ## The record of `writeToFile` and `printOutput` -/

section Writes
variable {σ χ ρ : Type}

theorem ensureDirectoryForFile_trace (env : Env σ χ ρ) (file : GoString) (w : World σ) :
    ∃ evs, (ensureDirectoryForFile env file w).2.trace = w.trace ++ evs ∧
      ∀ e ∈ evs, fileEvent file e := by
  simp only [ensureDirectoryForFile, osStat]
  cases (env.stat (pathDir file) w.state).1
  case failed err => exact ⟨[.stat (pathDir file)], rfl, by simp [fileEvent]⟩
  all_goals
    exact ⟨[.stat (pathDir file), .mkdirAll (pathDir file) defaultDirectoryPermission],
      by simp [osMkdirAll], by simp [fileEvent]⟩

theorem writeToFile_trace (env : Env σ χ ρ) (outputDir name data : GoString) (w : World σ) :
    ∃ evs, (writeToFile env outputDir name data w).2.trace =
        w.trace ++ .writeToFile outputDir name data :: evs ∧
      ∀ e ∈ evs, fileEvent (pathJoin [outputDir, name]) e := by
  rcases ensureDirectoryForFile_trace env (pathJoin [outputDir, name])
    (w.log (.writeToFile outputDir name data)) with ⟨evs, h1, hev⟩
  simp only [writeToFile]
  cases he : ensureDirectoryForFile env (pathJoin [outputDir, name])
    (w.log (.writeToFile outputDir name data)) with
  | mk r w1 =>
    rw [he] at h1
    simp only [World.log, List.append_assoc, List.singleton_append] at h1
    cases r with
    | some err => exact ⟨evs, h1, hev⟩
    | none =>
      simp only [osCreate]
      cases (env.create (pathJoin [outputDir, name]) w1.state).1 with
      | some err =>
        refine ⟨evs ++ [.create (pathJoin [outputDir, name])], by simp [h1], ?_⟩
        intro e he
        rcases List.mem_append.1 he with he | he
        · exact hev e he
        · simp only [List.mem_singleton] at he
          simp [fileEvent, he]
      | none =>
        simp only [fileWriteString]
        cases (env.writeString (pathJoin [outputDir, name]) _ _).1 with
        | some err =>
          refine ⟨evs ++ [.create (pathJoin [outputDir, name]),
            .writeString (pathJoin [outputDir, name])
              (lit "##---\n# Source: " ++ name ++ lit "\n" ++ data),
            .close (pathJoin [outputDir, name])], by simp [h1, fileClose], ?_⟩
          intro e he
          rcases List.mem_append.1 he with he | he
          · exact hev e he
          · simp only [List.mem_cons, List.mem_singleton, List.not_mem_nil, or_false] at he
            rcases he with he | he | he <;> simp [fileEvent, he]
        | none =>
          refine ⟨evs ++ [.create (pathJoin [outputDir, name]),
            .writeString (pathJoin [outputDir, name])
              (lit "##---\n# Source: " ++ name ++ lit "\n" ++ data),
            .stdout (lit "wrote " ++ pathJoin [outputDir, name] ++ lit "\n"),
            .close (pathJoin [outputDir, name])],
            by simp [h1, fileClose, printf, World.log], ?_⟩
          intro e he
          rcases List.mem_append.1 he with he | he
          · exact hev e he
          · simp only [List.mem_cons, List.mem_singleton, List.not_mem_nil, or_false] at he
            rcases he with he | he | he | he <;> simp [fileEvent, he]

theorem writeCalls_of_fileEvents (file : GoString) (evs : List Event)
    (h : ∀ e ∈ evs, fileEvent file e) : writeCalls evs = [] := by
  unfold writeCalls
  rw [List.filterMap_eq_nil_iff]
  intro e he
  rcases h e he with h | h | h | ⟨t, h⟩ | h | ⟨t, h⟩ <;> rw [h]

theorem writeCalls_writeToFile (env : Env σ χ ρ) (outputDir name data : GoString)
    (w : World σ) :
    writeCalls (writeToFile env outputDir name data w).2.trace =
      writeCalls w.trace ++ [(outputDir, name, data)] := by
  rcases writeToFile_trace env outputDir name data w with ⟨evs, h, hev⟩
  have h2 := writeCalls_of_fileEvents _ evs hev
  rw [h]
  unfold writeCalls at h2 ⊢
  rw [List.filterMap_append, List.filterMap_cons, h2]

/-- C6: for every artifact handed to `printOutput`: with an output directory
configured, `writeToFile` is called if and only if the text is not made up
only of white space, which the code decides with `whitespaceRegex`, that is,
of the bytes tab, line feed, form feed, carriage return and space (the empty
text is blank), and for a blank text nothing else happens; with no output
directory the block is written to standard output for every text. -/
theorem printOutput_blank_rule (env : Env σ χ ρ) (flags : Flags) (name data : GoString)
    (w : World σ) :
    (whitespaceRegex.matchString data = true ↔ ∀ c ∈ data, isPerlSpace c = true) ∧
    (flags.outputDir ≠ [] →
      (writeCalls (printOutput env flags name data w).trace =
          writeCalls w.trace ++ [(flags.outputDir, name, data)] ↔
        ¬ ∀ c ∈ data, isPerlSpace c = true) ∧
      ((∀ c ∈ data, isPerlSpace c = true) →
        printOutput env flags name data w = w.log (.printOutput name data))) ∧
    (flags.outputDir = [] →
      printOutput env flags name data w =
        { w with trace := w.trace ++
            [.printOutput name data,
             .stdout (lit "---\n# Source: " ++ name ++ lit "\n"),
             .stdout (data ++ lit "\n")] }) := by
  refine ⟨whitespaceRegex_matchString data, ?_, ?_⟩
  · intro hdir
    have hlog : writeCalls (w.log (.printOutput name data)).trace = writeCalls w.trace := by
      simp [World.log, writeCalls, List.filterMap_append]
    by_cases hblank : ∀ c ∈ data, isPerlSpace c = true
    · have hm := (whitespaceRegex_matchString data).2 hblank
      have hp : printOutput env flags name data w = w.log (.printOutput name data) := by
        simp [printOutput, hdir, hm]
      refine ⟨?_, fun _ => hp⟩
      rw [hp, hlog]
      constructor
      · intro h
        have := congrArg List.length h
        simp at this
      · intro h
        exact absurd hblank h
    · have hm : whitespaceRegex.matchString data = false := by
        cases h : whitespaceRegex.matchString data
        · rfl
        · exact absurd ((whitespaceRegex_matchString data).1 h) hblank
      refine ⟨⟨fun _ => hblank, fun _ => ?_⟩, fun h => absurd h hblank⟩
      have hw := writeCalls_writeToFile env flags.outputDir name data
        (w.log (.printOutput name data))
      simp only [printOutput, hdir, hm, ne_eq, not_false_eq_true, if_true, Bool.not_false]
      cases hr : writeToFile env flags.outputDir name data (w.log (.printOutput name data)) with
      | mk r w1 =>
        rw [hr, hlog] at hw
        cases r with
        | some err => simpa [println, World.log, writeCalls, List.filterMap_append] using hw
        | none => exact hw
  · intro hdir
    simp [printOutput, hdir, println, printf, World.log]

/-- C6 on the demo surroundings: with the output directory `out` a text of a
space and a line feed leaves one call of `printOutput` on record and no file
operation; with no output directory it is printed. -/
theorem printOutput_blank_rule_witness :
    dirFlags.outputDir ≠ [] ∧ (∀ c ∈ lit " \n", isPerlSpace c = true) ∧
    printOutput demoEnv dirFlags (lit "b.yaml") (lit " \n") startWorld =
      startWorld.log (.printOutput (lit "b.yaml") (lit " \n")) ∧
    defaultFlags.outputDir = [] ∧
    printOutput demoEnv defaultFlags (lit "b.yaml") (lit " \n") startWorld =
      { startWorld with trace := startWorld.trace ++
          [.printOutput (lit "b.yaml") (lit " \n"),
           .stdout (lit "---\n# Source: " ++ lit "b.yaml" ++ lit "\n"),
           .stdout (lit " \n" ++ lit "\n")] } :=
  ⟨by decide, by decide,
   ((printOutput_blank_rule demoEnv dirFlags (lit "b.yaml") (lit " \n") startWorld).2.1
      (by decide)).2 (by decide),
   rfl,
   (printOutput_blank_rule demoEnv defaultFlags (lit "b.yaml") (lit " \n") startWorld).2.2
      rfl⟩

/-- C7: whatever the file system does, a failure of `writeToFile` does not
stop the run: `printOutput` prints the error and returns, `run` makes every
call of `printOutput` it makes for the render output, in the same order, and
returns no error. -/
theorem write_failure_not_fatal (env : Env σ χ ρ) (flags : Flags) (args : List GoString)
    (w w1 : World σ) (out : StringMap)
    (hr : runRender env flags args w = (.ok out, w1)) :
    (∀ (name data : GoString) (w2 w3 : World σ) (err : Error),
      flags.outputDir ≠ [] → whitespaceRegex.matchString data = false →
      writeToFile env flags.outputDir name data (w2.log (.printOutput name data)) =
        (some err, w3) →
      printOutput env flags name data w2 = println err w3) ∧
    (run env flags args w).1 = .returned none ∧
    printCalls (run env flags args w).2.trace = printCalls w.trace ++ outputCalls flags out := by
  refine ⟨?_, run_calls env flags args w w1 out hr⟩
  intro name data w2 w3 err hdir hm hw
  simp [printOutput, hdir, hm, hw]

/-- C7 on the demo surroundings, where no directory can be made: with the
output directory `out` the write of `a.yaml` fails and is reported, and the
run goes on to `b.yaml` and `blank.yaml` and returns no error. -/
theorem write_failure_not_fatal_witness :
    runRender demoEnv dirFlags [lit "c"] startWorld =
      (.ok demoOut, startWorld.log (.stat (lit "out"))) ∧
    (writeToFile demoEnv (lit "out") (lit "c/templates/a.yaml") (lit "x: 1\n")
      ((startWorld.log (.stat (lit "out"))).log
        (.printOutput (lit "c/templates/a.yaml") (lit "x: 1\n")))).1 =
      some (lit "permission denied") ∧
    (run demoEnv dirFlags [lit "c"] startWorld).1 = .returned none ∧
    printCalls (run demoEnv dirFlags [lit "c"] startWorld).2.trace =
      [(lit "c/templates/a.yaml", lit "x: 1\n"), (lit "c/templates/b.yaml", lit "y: 2\n"),
       (lit "c/templates/blank.yaml", lit " \n")] ∧
    (run demoEnv dirFlags [lit "c"] startWorld).2.trace =
      [.stat (lit "out"),
       .printOutput (lit "c/templates/a.yaml") (lit "x: 1\n"),
       .writeToFile (lit "out") (lit "c/templates/a.yaml") (lit "x: 1\n"),
       .stat (lit "out/c/templates"), .mkdirAll (lit "out/c/templates") 0o755,
       .stdout (lit "permission denied\n"),
       .printOutput (lit "c/templates/b.yaml") (lit "y: 2\n"),
       .writeToFile (lit "out") (lit "c/templates/b.yaml") (lit "y: 2\n"),
       .stat (lit "out/c/templates"), .mkdirAll (lit "out/c/templates") 0o755,
       .stdout (lit "permission denied\n"),
       .printOutput (lit "c/templates/blank.yaml") (lit " \n")] :=
  ⟨rfl, rfl,
   (write_failure_not_fatal demoEnv dirFlags [lit "c"] startWorld _ demoOut rfl).2.1,
   (write_failure_not_fatal demoEnv dirFlags [lit "c"] startWorld _ demoOut rfl).2.2.trans
     (by decide),
   by decide⟩

end Writes

/-! ## The sources of the values -/

section Reads
variable {σ χ ρ : Type}

theorem readEvents_readValues (env : Env σ χ ρ) (filePath : GoString) (w : World σ) :
    readEvents (readValues env filePath w).2.trace =
      readEvents w.trace ++
        [if trimSpace filePath = lit "-" then Event.readStdin else Event.readFile filePath] := by
  unfold readValues
  split <;> simp [readEvents, List.filter_append]

theorem readDocs_cons_of_ok (env : Env σ χ ρ) (filePath : GoString) (rest : List GoString)
    (w w1 : World σ) (bytes : GoString) (currentMap : Doc)
    (hr : readValues env filePath w = (.ok bytes, w1))
    (hy : env.yamlUnmarshal bytes = .ok currentMap) :
    readDocs env (filePath :: rest) w =
      match readDocs env rest w1 with
      | (.error err, w2) => (.error err, w2)
      | (.ok docs, w2) => (.ok (currentMap :: docs), w2) := by
  simp only [readDocs, hr, hy]
  all_goals
    rcases readDocs env rest w1 with ⟨r2, w2⟩
    cases r2 <;> rfl

/-- The reads of the file loop of `vals`: the entries are read in order, each
from the source its trimmed form selects, up to and including the first one
that cannot be read or parsed. -/
theorem readEvents_readDocs (env : Env σ χ ρ) :
    ∀ (files : List GoString) (w : World σ),
      ∃ n, n ≤ files.length ∧
        readEvents (readDocs env files w).2.trace =
          readEvents w.trace ++ (files.take n).map (fun f =>
            if trimSpace f = lit "-" then Event.readStdin else Event.readFile f) ∧
        (∀ m, m < n → ∃ docs w', readDocs env (files.take m) w = (.ok docs, w')) ∧
        (n < files.length → ∃ err w', readDocs env (files.take n) w = (.error err, w')) ∧
        (∀ docs, (readDocs env files w).1 = .ok docs → n = files.length)
  | [], w => ⟨0, Nat.le_refl _, by simp [readDocs], fun m hm => absurd hm (Nat.not_lt_zero m),
      fun h => absurd h (Nat.lt_irrefl _), fun _ _ => rfl⟩
  | filePath :: rest, w => by
    have h := readEvents_readValues env filePath w
    cases hr : readValues env filePath w with
    | mk r w1 =>
      rw [hr] at h
      dsimp only at h
      have hfail1 : ∀ err, (r = .error err ∨ ∃ bytes err0, r = .ok bytes ∧
          env.yamlUnmarshal bytes = .error err0 ∧
          err = lit "failed to parse " ++ filePath ++ lit ": " ++ err0) →
          ∀ l : List GoString, readDocs env (filePath :: l) w = (.error err, w1) := by
        intro err hcase l
        rcases hcase with rfl | ⟨bytes, err0, rfl, hy, rfl⟩
        · simp only [readDocs, hr]
        · simp only [readDocs, hr, hy]
      have hone : ∀ err, (∀ l : List GoString,
          readDocs env (filePath :: l) w = (.error err, w1)) →
          ∃ n, n ≤ (filePath :: rest).length ∧
            readEvents (readDocs env (filePath :: rest) w).2.trace =
              readEvents w.trace ++ ((filePath :: rest).take n).map (fun f =>
                if trimSpace f = lit "-" then Event.readStdin else Event.readFile f) ∧
            (∀ m, m < n → ∃ docs w', readDocs env ((filePath :: rest).take m) w =
              (.ok docs, w')) ∧
            (n < (filePath :: rest).length → ∃ err w',
              readDocs env ((filePath :: rest).take n) w = (.error err, w')) ∧
            (∀ docs, (readDocs env (filePath :: rest) w).1 = .ok docs →
              n = (filePath :: rest).length) := by
        intro err hall
        refine ⟨1, by simp, ?_, ?_, ?_, ?_⟩
        · rw [hall rest]
          simpa using h
        · intro m hm
          have hm0 : m = 0 := by omega
          subst hm0
          exact ⟨[], w, rfl⟩
        · intro _
          exact ⟨err, w1, by simpa using hall []⟩
        · intro docs hd
          rw [hall rest] at hd
          cases hd
      cases r with
      | error err => exact hone err (hfail1 err (Or.inl rfl))
      | ok bytes =>
        cases hy : env.yamlUnmarshal bytes with
        | error err0 =>
          exact hone _ (hfail1 _ (Or.inr ⟨bytes, err0, rfl, hy, rfl⟩))
        | ok currentMap =>
          have hcons := fun l => readDocs_cons_of_ok env filePath l w w1 bytes currentMap hr hy
          rcases readEvents_readDocs env rest w1 with ⟨n, hn, ht, hpre, hfail, hok⟩
          refine ⟨n + 1, by simpa using hn, ?_, ?_, ?_, ?_⟩
          · rw [hcons rest]
            have ht' : readEvents (match readDocs env rest w1 with
                | (.error err, w2) => ((.error err : Except Error (List Doc)), w2)
                | (.ok docs, w2) => (.ok (currentMap :: docs), w2)).2.trace =
                readEvents (readDocs env rest w1).2.trace := by
              rcases readDocs env rest w1 with ⟨r2, w2⟩
              cases r2 <;> rfl
            rw [ht', ht, h]
            simp
          · intro m hm
            cases m with
            | zero => exact ⟨[], w, rfl⟩
            | succ k =>
              rcases hpre k (by omega) with ⟨docs, w', hk⟩
              refine ⟨currentMap :: docs, w', ?_⟩
              rw [List.take_succ_cons, hcons, hk]
          · intro hlt
            rcases hfail (by simpa using hlt) with ⟨err, w', hk⟩
            refine ⟨err, w', ?_⟩
            rw [List.take_succ_cons, hcons, hk]
          · intro docs hd
            rw [hcons rest] at hd
            cases hrd : readDocs env rest w1 with
            | mk r2 w2 =>
              rw [hrd] at hd
              cases r2 with
              | error e => cases hd
              | ok docs2 =>
                have := hok docs2 (by rw [hrd])
                simp [this]

/-- C9, as the code has it: for every list of value files, `vals` reads the
entries in order, up to and including the first one that cannot be read or
parsed (all of them when there is none), each from standard input if the
entry is `-` once its leading and trailing white space is removed
(`strings.TrimSpace`), and from the file named by the entry as it stands
otherwise. -/
theorem vals_reads (env : Env σ χ ρ) (valueFiles values stringValues : List GoString)
    (w : World σ) :
    ∃ n, n ≤ valueFiles.length ∧
      readEvents (vals env valueFiles values stringValues w).2.trace =
        readEvents w.trace ++ (valueFiles.take n).map (fun f =>
          if trimSpace f = lit "-" then Event.readStdin else Event.readFile f) ∧
      (∀ m, m < n → ∃ docs w', readDocs env (valueFiles.take m) w = (.ok docs, w')) ∧
      (n < valueFiles.length →
        ∃ err w', readDocs env (valueFiles.take n) w = (.error err, w')) ∧
      (∀ bytes, (vals env valueFiles values stringValues w).1 = .ok bytes →
        n = valueFiles.length) := by
  rcases readEvents_readDocs env valueFiles w with ⟨n, hn, ht, hpre, hfail, hok⟩
  have hv := vals_eq_readDocs env valueFiles values stringValues w
  refine ⟨n, hn, ?_, hpre, hfail, ?_⟩
  · rw [hv]
    exact ht
  · intro bytes hb
    rw [hv] at hb
    dsimp only at hb
    cases hrd : (readDocs env valueFiles w).1 with
    | error e =>
      rw [hrd] at hb
      cases hb
    | ok docs => exact hok docs hrd

/-- C9 on the demo surroundings, where standard input can be read and no
file can: of the entries `-`, `-` between spaces, `x` and `y`, the first two
are read from standard input, the third from the file `x`, where the run
stops, and `y` is not read. -/
theorem vals_reads_witness :
    readEvents (vals demoEnv [lit "-", lit " - ", lit "x", lit "y"] [] [] startWorld).2.trace =
      [Event.readStdin, Event.readStdin, Event.readFile (lit "x")] := by
  rcases vals_reads demoEnv [lit "-", lit " - ", lit "x", lit "y"] [] [] startWorld with
    ⟨n, hn, ht, hpre, hfail, _⟩
  have e0 : (readDocs demoEnv ([lit "-", lit " - ", lit "x", lit "y"].take 0) startWorld).1 =
      .ok [] := rfl
  have e1 : (readDocs demoEnv ([lit "-", lit " - ", lit "x", lit "y"].take 1) startWorld).1 =
      .ok [.nil] := rfl
  have e2 : (readDocs demoEnv ([lit "-", lit " - ", lit "x", lit "y"].take 2) startWorld).1 =
      .ok [.nil, .nil] := rfl
  have e3 : (readDocs demoEnv ([lit "-", lit " - ", lit "x", lit "y"].take 3) startWorld).1 =
      .error (lit "no such file or directory") := rfl
  have h3 : n = 3 := by
    simp only [List.length_cons, List.length_nil] at hn hfail
    have hcases : n = 0 ∨ n = 1 ∨ n = 2 ∨ n = 3 ∨ n = 4 := by omega
    rcases hcases with h | h | h | h | h
    · subst h
      rcases hfail (by omega) with ⟨err, w', he⟩
      have hx := congrArg Prod.fst he
      rw [e0] at hx
      cases hx
    · subst h
      rcases hfail (by omega) with ⟨err, w', he⟩
      have hx := congrArg Prod.fst he
      rw [e1] at hx
      cases hx
    · subst h
      rcases hfail (by omega) with ⟨err, w', he⟩
      have hx := congrArg Prod.fst he
      rw [e2] at hx
      cases hx
    · exact h
    · subst h
      rcases hpre 3 (by omega) with ⟨docs, w', he⟩
      have hx := congrArg Prod.fst he
      rw [e3] at hx
      cases hx
  subst h3
  rw [ht]
  decide

/-- C9 fails at the entry ` -` (a space, then `-`): it is not the string `-`,
and `vals` reads standard input for it, not the file of that name. -/
theorem vals_reads_stdin_for_padded_marker :
    lit " -" ≠ lit "-" ∧
    readEvents (vals demoEnv [lit " -"] [] [] startWorld).2.trace = [Event.readStdin] ∧
    Event.readFile (lit " -") ∉ (vals demoEnv [lit " -"] [] [] startWorld).2.trace := by
  decide

end Reads

/-! ## Cleaning and joining paths -/

theorem segments_ne_nil : ∀ p : GoString, segments p ≠ []
  | [] => by simp [segments]
  | c :: t => by
    simp only [segments]
    split
    · simp
    · split <;> simp

theorem segments_slash_cons (t : GoString) : segments (slash :: t) = [] :: segments t := by
  simp [segments]

theorem segments_cons_of_ne (c : Byte) (t : GoString) (h : c ≠ slash) :
    segments (c :: t) = (c :: (segments t).headI) :: (segments t).tail := by
  simp only [segments, h, if_false]
  cases hs : segments t with
  | nil => exact absurd hs (segments_ne_nil t)
  | cons s ss => rfl

theorem tail_segments_cons_of_ne (c : Byte) (t : GoString) (h : c ≠ slash) :
    (segments (c :: t)).tail = (segments t).tail := by
  rw [segments_cons_of_ne c t h]
  rfl

theorem atBoundary_append (t n : GoString) :
    atBoundary (t ++ slash :: n) = atBoundary t := by
  cases t with
  | nil => simp [atBoundary]
  | cons x t' => rfl

theorem cleanLoop_nil (r f : Bool) (out : GoString) (dd : Nat) :
    cleanLoop r [] f out dd = (out, dd) := by
  cases f <;> rfl

theorem cleanLoop_slash (r f : Bool) (t out : GoString) (dd : Nat) :
    cleanLoop r (slash :: t) f out dd = cleanLoop r t false out dd := by
  cases f <;> cases t <;> simp [cleanLoop]

theorem cleanLoop_elem (r : Bool) (c : Byte) (t out : GoString) (dd : Nat) (h : c ≠ slash) :
    cleanLoop r (c :: t) true out dd = cleanLoop r t true (out ++ [c]) dd := by
  simp [cleanLoop, h]

theorem cleanLoop_dot (r : Bool) (t out : GoString) (dd : Nat) (h : atBoundary t = true) :
    cleanLoop r (dot :: t) false out dd = cleanLoop r t false out dd := by
  have hds : dot ≠ slash := by decide
  cases t <;> simp [cleanLoop, hds, h]

theorem cleanLoop_dotdot (r : Bool) (t out : GoString) (dd : Nat) (h : atBoundary t = true) :
    cleanLoop r (dot :: dot :: t) false out dd =
      cleanLoop r t false (dotdotStep r out dd).1 (dotdotStep r out dd).2 := by
  have hds : dot ≠ slash := by decide
  have hb : atBoundary (dot :: t) = false := by simp [atBoundary, hds]
  simp [cleanLoop, hds, h, hb]

theorem cleanLoop_real (r : Bool) (c : Byte) (t out : GoString) (dd : Nat)
    (h : startsElement c t) :
    cleanLoop r (c :: t) false out dd = cleanLoop r t true (addSlash r out ++ [c]) dd := by
  rcases h with ⟨h1, h2, h3⟩
  cases t with
  | nil =>
    simp only [cleanLoop, h1, if_false, h2]
  | cons d t' =>
    have h3' : ¬ (c = dot ∧ d = dot ∧ atBoundary t' = true) := by
      rintro ⟨hc, hd, hb⟩
      exact h3 ⟨hc, t', by rw [hd], hb⟩
    simp only [cleanLoop, h1, if_false, h2, h3']

/-- The cases of the loop of `path.Clean` at the start of a path element. -/
theorem cleanLoop_cases (c : Byte) (t : GoString) :
    c = slash ∨ (c = dot ∧ atBoundary t = true) ∨
      (c = dot ∧ ∃ t', t = dot :: t' ∧ atBoundary t' = true) ∨ startsElement c t := by
  unfold startsElement
  tauto

theorem startsElement_append (c : Byte) (t n : GoString) (h : startsElement c t) :
    startsElement c (t ++ slash :: n) := by
  rcases h with ⟨h1, h2, h3⟩
  refine ⟨h1, ?_, ?_⟩
  · rw [atBoundary_append]; exact h2
  · rintro ⟨hc, t', ht, hb⟩
    cases t with
    | nil =>
      simp only [List.nil_append, List.cons.injEq] at ht
      exact absurd ht.1 (by decide)
    | cons d t2 =>
      simp only [List.cons_append, List.cons.injEq] at ht
      rcases ht with ⟨rfl, rfl⟩
      rw [atBoundary_append] at hb
      exact h3 ⟨hc, t2, rfl, hb⟩

/-- The loop of `path.Clean` reads a path that continues after a slash as the
path before the slash, followed from the state reached there by the rest. -/
theorem cleanLoop_append_slash (r : Bool) (n : GoString) :
    ∀ (d : GoString) (f : Bool) (out : GoString) (dd : Nat),
      cleanLoop r (d ++ slash :: n) f out dd =
        cleanLoop r n false (cleanLoop r d f out dd).1 (cleanLoop r d f out dd).2
  | [], f, out, dd => by
    rw [cleanLoop_nil, List.nil_append, cleanLoop_slash]
  | c :: t, true, out, dd => by
    by_cases hc : c = slash
    · subst hc
      rw [List.cons_append, cleanLoop_slash, cleanLoop_slash]
      exact cleanLoop_append_slash r n t false out dd
    · rw [List.cons_append, cleanLoop_elem r c _ out dd hc, cleanLoop_elem r c _ out dd hc]
      exact cleanLoop_append_slash r n t true _ dd
  | [c], false, out, dd => by
    have ih := cleanLoop_append_slash r n []
    rcases cleanLoop_cases c [] with rfl | ⟨rfl, hb⟩ | ⟨_, t', ht, _⟩ | h
    · rw [List.cons_append, cleanLoop_slash, cleanLoop_slash]
      exact ih false out dd
    · rw [List.cons_append, cleanLoop_dot r _ out dd (by rw [atBoundary_append]; exact hb),
        cleanLoop_dot r _ out dd hb]
      exact ih false out dd
    · cases ht
    · rw [List.cons_append, cleanLoop_real r c _ out dd (startsElement_append c [] n h),
        cleanLoop_real r c _ out dd h]
      exact ih true _ dd
  | c :: d' :: t', false, out, dd => by
    have ih1 := cleanLoop_append_slash r n (d' :: t')
    have ih2 := cleanLoop_append_slash r n t'
    rcases cleanLoop_cases c (d' :: t') with rfl | ⟨rfl, hb⟩ | ⟨rfl, t2, ht, hb⟩ | h
    · rw [List.cons_append, cleanLoop_slash, cleanLoop_slash]
      exact ih1 false out dd
    · rw [List.cons_append, cleanLoop_dot r _ out dd (by rw [atBoundary_append]; exact hb),
        cleanLoop_dot r _ out dd hb]
      exact ih1 false out dd
    · simp only [List.cons.injEq] at ht
      rcases ht with ⟨rfl, rfl⟩
      rw [List.cons_append, List.cons_append,
        cleanLoop_dotdot r _ out dd (by rw [atBoundary_append]; exact hb),
        cleanLoop_dotdot r _ out dd hb]
      exact ih2 false _ _
    · rw [List.cons_append, cleanLoop_real r c _ out dd (startsElement_append c _ n h),
        cleanLoop_real r c _ out dd h]
      exact ih1 true _ dd

theorem segments_eq_head_tail (t : GoString) :
    segments t = (segments t).headI :: (segments t).tail := by
  cases h : segments t with
  | nil => exact absurd h (segments_ne_nil t)
  | cons s ss => rfl

theorem head_segments_of_atBoundary (t : GoString) (h : atBoundary t = true) :
    (segments t).headI = [] := by
  cases t with
  | nil => rfl
  | cons x t' =>
    simp only [atBoundary, decide_eq_true_eq] at h
    subst h
    rw [segments_slash_cons]
    rfl

theorem mem_segments_of_mem_tail (c : Byte) (t x : GoString) (hc : c ≠ slash)
    (h : x ∈ (segments t).tail) : x ∈ segments (c :: t) := by
  rw [← tail_segments_cons_of_ne c t hc] at h
  exact List.mem_of_mem_tail h

theorem dotdot_mem_segments (t : GoString) (h : atBoundary t = true) :
    [dot, dot] ∈ segments (dot :: dot :: t) := by
  have hds : dot ≠ slash := by decide
  rw [segments_cons_of_ne dot _ hds, segments_cons_of_ne dot _ hds,
    head_segments_of_atBoundary t h]
  exact List.mem_cons_self _ _

/-- While the path read has no element `..`, the loop of `path.Clean` only
adds to its buffer. -/
theorem cleanLoop_grows (r : Bool) :
    ∀ (rest : GoString) (f : Bool) (out : GoString) (dd : Nat),
      (f = false → [dot, dot] ∉ segments rest) →
      (f = true → [dot, dot] ∉ (segments rest).tail) →
      out <+: (cleanLoop r rest f out dd).1
  | [], f, out, dd, _, _ => by
    rw [cleanLoop_nil]
  | c :: t, true, out, dd, _, h => by
    have h := h rfl
    by_cases hc : c = slash
    · subst hc
      rw [cleanLoop_slash]
      rw [segments_slash_cons] at h
      exact cleanLoop_grows r t false out dd (fun _ => h) (fun hf => by cases hf)
    · rw [cleanLoop_elem r c t out dd hc]
      rw [tail_segments_cons_of_ne c t hc] at h
      exact (List.prefix_append out [c]).trans
        (cleanLoop_grows r t true _ dd (fun hf => by cases hf) (fun _ => h))
  | c :: t, false, out, dd, h, _ => by
    have h := h rfl
    rcases cleanLoop_cases c t with rfl | ⟨rfl, hb⟩ | ⟨rfl, t', rfl, hb⟩ | he
    · rw [cleanLoop_slash]
      rw [segments_slash_cons] at h
      exact cleanLoop_grows r t false out dd
        (fun _ hm => h (List.mem_cons_of_mem _ hm)) (fun hf => by cases hf)
    · rw [cleanLoop_dot r t out dd hb]
      refine cleanLoop_grows r t false out dd (fun _ hm => h ?_) (fun hf => by cases hf)
      rw [segments_eq_head_tail t, head_segments_of_atBoundary t hb] at hm
      rcases List.mem_cons.1 hm with hm | hm
      · cases hm
      · exact mem_segments_of_mem_tail dot t _ (by decide) hm
    · exact absurd (dotdot_mem_segments t' hb) h
    · rw [cleanLoop_real r c t out dd he]
      have hout : out <+: addSlash r out ++ [c] := by
        unfold addSlash
        split
        · rw [List.append_assoc]; exact List.prefix_append _ _
        · exact List.prefix_append _ _
      exact hout.trans (cleanLoop_grows r t true _ dd (fun hf => by cases hf)
        (fun _ hm => h (mem_segments_of_mem_tail c t _ he.1 hm)))

/-- While the path read has no element `..`, what the loop of `path.Clean`
adds to a buffer that gets a slash before the next element starts with a slash. -/
theorem cleanLoop_grows_slash (r : Bool) :
    ∀ (rest : GoString) (out : GoString) (dd : Nat),
      [dot, dot] ∉ segments rest → addSlash r out = out ++ [slash] →
      (cleanLoop r rest false out dd).1 = out ∨
        out ++ [slash] <+: (cleanLoop r rest false out dd).1
  | [], out, dd, _, _ => by
    rw [cleanLoop_nil]
    exact Or.inl rfl
  | c :: t, out, dd, h, hs => by
    rcases cleanLoop_cases c t with rfl | ⟨rfl, hb⟩ | ⟨rfl, t', rfl, hb⟩ | he
    · rw [cleanLoop_slash]
      rw [segments_slash_cons] at h
      exact cleanLoop_grows_slash r t out dd (fun hm => h (List.mem_cons_of_mem _ hm)) hs
    · rw [cleanLoop_dot r t out dd hb]
      refine cleanLoop_grows_slash r t out dd (fun hm => h ?_) hs
      rw [segments_eq_head_tail t, head_segments_of_atBoundary t hb] at hm
      rcases List.mem_cons.1 hm with hm | hm
      · cases hm
      · exact mem_segments_of_mem_tail dot t _ (by decide) hm
    · exact absurd (dotdot_mem_segments t' hb) h
    · rw [cleanLoop_real r c t out dd he, hs]
      right
      exact (List.prefix_append (out ++ [slash]) [c]).trans
        (cleanLoop_grows r t true _ dd (fun hf => by cases hf)
          (fun _ hm => h (mem_segments_of_mem_tail c t _ he.1 hm)))

theorem backtrackRev_suffix (dd : Nat) :
    ∀ (l : List Byte) (x : Byte), dd ≤ l.length →
      backtrackRev dd x l <:+ l ∧ dd ≤ (backtrackRev dd x l).length
  | [], _, h => ⟨List.suffix_refl _, h⟩
  | b :: bs, x, h => by
    simp only [backtrackRev]
    split
    · next hc =>
      have ih := backtrackRev_suffix dd bs b (by simpa using Nat.le_of_lt_succ hc.1)
      exact ⟨ih.1.trans (List.suffix_cons b bs), ih.2⟩
    · exact ⟨List.suffix_refl _, h⟩

theorem backtrack_head (dd : Nat) (out : GoString) (h1 : 1 ≤ dd) (h2 : dd < out.length) :
    (backtrack dd out).head? = out.head? := by
  unfold backtrack
  cases hr : out.reverse with
  | nil =>
    have : out = [] := by simpa using hr
    subst this
    simp at h2
  | cons b bs =>
    have hlen : out.length = bs.length + 1 := by
      have := congrArg List.length hr
      simpa using this
    have hs := backtrackRev_suffix dd bs b (by omega)
    have hp : (backtrackRev dd b bs).reverse <+: out := by
      have h3 : backtrackRev dd b bs <:+ out.reverse := by
        rw [hr]
        exact hs.1.trans (List.suffix_cons b bs)
      have h4 := List.reverse_prefix.2 h3
      simpa using h4
    rcases hp with ⟨rest, hrest⟩
    dsimp only
    cases hb : (backtrackRev dd b bs).reverse with
    | nil =>
      have := congrArg List.length hb
      simp only [List.length_reverse, List.length_nil] at this
      omega
    | cons y ys =>
      rw [hb] at hrest
      rw [← hrest]
      rfl

/-- The buffer of `path.Clean` for a rooted path keeps its leading slash. -/
theorem cleanLoop_rooted_head :
    ∀ (rest : GoString) (f : Bool) (out : GoString),
      out.head? = some slash →
      (cleanLoop true rest f out 1).1.head? = some slash ∧ (cleanLoop true rest f out 1).2 = 1
  | [], f, out, h => by
    rw [cleanLoop_nil]
    exact ⟨h, rfl⟩
  | c :: t, true, out, h => by
    by_cases hc : c = slash
    · subst hc
      rw [cleanLoop_slash]
      exact cleanLoop_rooted_head t false out h
    · rw [cleanLoop_elem true c t out 1 hc]
      exact cleanLoop_rooted_head t true _ (by cases out <;> simp_all)
  | [c], false, out, h => by
    rcases cleanLoop_cases c [] with rfl | ⟨rfl, hb⟩ | ⟨_, t', ht, _⟩ | he
    · rw [cleanLoop_slash]
      exact cleanLoop_rooted_head [] false out h
    · rw [cleanLoop_dot true [] out 1 hb]
      exact cleanLoop_rooted_head [] false out h
    · cases ht
    · rw [cleanLoop_real true c [] out 1 he]
      refine cleanLoop_rooted_head [] true _ ?_
      unfold addSlash
      split <;> (cases out <;> simp_all)
  | c :: d' :: t', false, out, h => by
    rcases cleanLoop_cases c (d' :: t') with rfl | ⟨rfl, hb⟩ | ⟨rfl, t2, ht, hb⟩ | he
    · rw [cleanLoop_slash]
      exact cleanLoop_rooted_head (d' :: t') false out h
    · rw [cleanLoop_dot true _ out 1 hb]
      exact cleanLoop_rooted_head (d' :: t') false out h
    · simp only [List.cons.injEq] at ht
      rcases ht with ⟨rfl, rfl⟩
      rw [cleanLoop_dotdot true _ out 1 hb]
      unfold dotdotStep
      split
      · next hlt =>
        exact cleanLoop_rooted_head t' false _ (by rw [backtrack_head 1 out (Nat.le_refl _) hlt]; exact h)
      · exact cleanLoop_rooted_head t' false out h
    · rw [cleanLoop_real true c _ out 1 he]
      refine cleanLoop_rooted_head (d' :: t') true _ ?_
      unfold addSlash
      split <;> (cases out <;> simp_all)

theorem pathClean_of_ne_nil (p : GoString) (h : p ≠ []) :
    pathClean p = if (cleanState p).1 = [] then lit "." else (cleanState p).1 := by
  unfold pathClean cleanState
  simp only [h, if_false]
  by_cases hr : p.head? = some slash <;> simp [hr]

theorem cleanState_append_slash (d n : GoString) (hd : d ≠ []) :
    cleanState (d ++ slash :: n) =
      cleanLoop (decide (d.head? = some slash)) n false (cleanState d).1 (cleanState d).2 := by
  cases d with
  | nil => exact absurd rfl hd
  | cons x t =>
    unfold cleanState
    by_cases hx : x = slash
    · subst hx
      simp only [List.cons_append, List.head?_cons, if_true, List.tail_cons, decide_True]
      exact cleanLoop_append_slash true n t false [slash] 1
    · have hne : ¬ (some x = some slash) := by simpa using hx
      simp only [List.cons_append, List.head?_cons, hne, if_false, decide_False]
      exact cleanLoop_append_slash false n (x :: t) false [] 0

theorem pathJoin_pair (d n : GoString) (hd : d ≠ []) :
    pathJoin [d, n] = pathClean (d ++ slash :: n) := by
  have hlen : 0 < d.length := List.length_pos.2 hd
  have hsum : ¬ (d.length + (n.length + 0) = 0) := by omega
  simp [pathJoin, joinBuf, hd, hlen, hsum]

/-- The buffer of `path.Clean` after a rooted path is read starts with a slash. -/
theorem cleanState_rooted_head (d : GoString) (h : d.head? = some slash) :
    (cleanState d).1.head? = some slash := by
  unfold cleanState
  simp only [h, if_true]
  exact (cleanLoop_rooted_head d.tail false [slash] rfl).1

/-- Joining a directory with a name that has no element `..` gives a path in
or below the cleaned directory, unless that is `.`. -/
theorem pathJoin_underDir (d n : GoString) (hd : d ≠ []) (hclean : pathClean d ≠ lit ".")
    (hn : lit ".." ∉ segments n) : underDir (pathClean d) (pathJoin [d, n]) := by
  have hn' : [dot, dot] ∉ segments n := hn
  have hcd := pathClean_of_ne_nil d hd
  have hne : (cleanState d).1 ≠ [] := by
    intro h
    rw [hcd, if_pos h] at hclean
    exact hclean rfl
  rw [if_neg hne] at hcd
  have hjoin : d ++ slash :: n ≠ [] := by simp
  rw [pathJoin_pair d n hd, pathClean_of_ne_nil _ hjoin, cleanState_append_slash d n hd, hcd]
  generalize hr : decide (d.head? = some slash) = r
  generalize ho : (cleanState d).1 = o at hne ⊢
  generalize (cleanState d).2 = dd
  have hgrow : o <+: (cleanLoop r n false o dd).1 :=
    cleanLoop_grows r n false o dd (fun _ => hn') (fun hf => by cases hf)
  have hres : (cleanLoop r n false o dd).1 ≠ [] := by
    intro h
    rw [h] at hgrow
    exact hne (List.prefix_nil.1 hgrow)
  rw [if_neg hres]
  by_cases hs : addSlash r o = o ++ [slash]
  · rcases cleanLoop_grows_slash r n o dd hn' hs with h | ⟨rest, h⟩
    · exact ⟨[], by rw [h, List.append_nil], Or.inl rfl⟩
    · exact ⟨slash :: rest, by rw [← h]; simp, Or.inr (Or.inl rfl)⟩
  · rcases hgrow with ⟨rest, h⟩
    refine ⟨rest, h.symm, Or.inr (Or.inr ?_)⟩
    have hrt : r = true ∧ o.length = 1 := by
      unfold addSlash at hs
      cases r
      · have : o.length ≠ 0 := fun h0 => hne (List.length_eq_zero.1 h0)
        simp [this] at hs
      · by_cases h1 : o.length = 1
        · exact ⟨rfl, h1⟩
        · simp [h1] at hs
    have hhead : o.head? = some slash := by
      rw [← ho]
      refine cleanState_rooted_head d ?_
      rw [hrt.1] at hr
      exact of_decide_eq_true hr
    cases o with
    | nil => simp at hne
    | cons x t =>
      cases t with
      | nil => simpa using hhead
      | cons y t2 => simp at hrt

theorem createdPaths_of_fileEvents (file : GoString) (evs : List Event)
    (h : ∀ e ∈ evs, fileEvent file e) : ∀ p ∈ createdPaths evs, p = file := by
  intro p hp
  unfold createdPaths at hp
  rcases List.mem_filterMap.1 hp with ⟨e, he, hpe⟩
  rcases h e he with h | h | h | ⟨t, h⟩ | h | ⟨t, h⟩ <;> rw [h] at hpe <;> simp at hpe
  exact hpe.symm

/-! ## The destination, element by element -/

theorem atBoundary_of_head_segments (t : GoString) (h : (segments t).headI = []) :
    atBoundary t = true := by
  cases t with
  | nil => rfl
  | cons c t' =>
    by_cases hc : c = slash
    · simp [atBoundary, hc]
    · rw [segments_cons_of_ne c t' hc] at h
      simp at h

theorem realElements_slash_cons (t : GoString) :
    realElements (slash :: t) = realElements t := by
  simp [realElements, segments_slash_cons]

theorem realElements_dot_cons (t : GoString) (hb : atBoundary t = true) :
    realElements (dot :: t) = realElements t := by
  have hds : dot ≠ slash := by decide
  unfold realElements
  rw [segments_cons_of_ne dot t hds, head_segments_of_atBoundary t hb]
  conv => rhs; rw [segments_eq_head_tail t, head_segments_of_atBoundary t hb]
  simp

theorem copyElements_cons (r : Bool) (out e : GoString) (elems : List GoString) :
    copyElements r out (e :: elems) = copyElements r (addSlash r out ++ e) elems := rfl

/-- The loop of `path.Clean` over a path with no element `..` copies the
elements that are neither empty nor `.` to the buffer. -/
theorem cleanLoop_copies (r : Bool) :
    ∀ (rest : GoString) (f : Bool) (out : GoString) (dd : Nat),
      (f = false → [dot, dot] ∉ segments rest) →
      (f = true → [dot, dot] ∉ (segments rest).tail) →
      cleanLoop r rest f out dd =
        (if f then
            copyElements r (out ++ (segments rest).headI)
              ((segments rest).tail.filter (fun s => decide (s ≠ []) && decide (s ≠ [dot])))
          else copyElements r out (realElements rest), dd)
  | [], f, out, dd, _, _ => by
    rw [cleanLoop_nil]
    cases f <;> simp [segments, realElements, copyElements]
  | c :: t, true, out, dd, _, h => by
    have h := h rfl
    by_cases hc : c = slash
    · subst hc
      rw [cleanLoop_slash]
      rw [segments_slash_cons] at h
      rw [cleanLoop_copies r t false out dd (fun _ => h) (fun hf => by cases hf)]
      simp [segments_slash_cons, realElements]
    · rw [cleanLoop_elem r c t out dd hc]
      rw [tail_segments_cons_of_ne c t hc] at h
      rw [cleanLoop_copies r t true _ dd (fun hf => by cases hf) (fun _ => h)]
      simp [segments_cons_of_ne c t hc]
  | c :: t, false, out, dd, h, _ => by
    have h := h rfl
    rcases cleanLoop_cases c t with rfl | ⟨rfl, hb⟩ | ⟨rfl, t', rfl, hb⟩ | he
    · rw [cleanLoop_slash]
      rw [segments_slash_cons] at h
      rw [cleanLoop_copies r t false out dd
        (fun _ hm => h (List.mem_cons_of_mem _ hm)) (fun hf => by cases hf)]
      simp [realElements_slash_cons]
    · rw [cleanLoop_dot r t out dd hb]
      rw [cleanLoop_copies r t false out dd (fun _ hm => h ?_) (fun hf => by cases hf)]
      · simp [realElements_dot_cons t hb]
      · rw [segments_eq_head_tail t, head_segments_of_atBoundary t hb] at hm
        rcases List.mem_cons.1 hm with hm | hm
        · cases hm
        · exact mem_segments_of_mem_tail dot t _ (by decide) hm
    · exact absurd (dotdot_mem_segments t' hb) h
    · rw [cleanLoop_real r c t out dd he]
      rw [cleanLoop_copies r t true _ dd (fun hf => by cases hf)
        (fun _ hm => h (mem_segments_of_mem_tail c t _ he.1 hm))]
      have hreal : (c :: (segments t).headI) ≠ [dot] := by
        intro heq
        simp only [List.cons.injEq] at heq
        exact he.2.1 ⟨heq.1, atBoundary_of_head_segments t heq.2⟩
      simp [realElements, segments_cons_of_ne c t he.1, hreal, copyElements_cons]

theorem segments_append_slash (b : GoString) :
    ∀ a : GoString, segments (a ++ slash :: b) = segments a ++ segments b
  | [] => by simp [segments]
  | c :: a => by
    have ih := segments_append_slash b a
    by_cases hc : c = slash
    · subst hc
      rw [List.cons_append, segments_slash_cons, segments_slash_cons, ih]
      rfl
    · rw [List.cons_append, segments_cons_of_ne c _ hc, segments_cons_of_ne c a hc, ih]
      rw [segments_eq_head_tail a]
      simp

theorem slash_not_mem_of_mem_segments :
    ∀ (p s : GoString), s ∈ segments p → slash ∉ s
  | [], s, h => by
    simp only [segments, List.mem_singleton] at h
    subst h
    simp
  | c :: t, s, h => by
    have ih := slash_not_mem_of_mem_segments t
    by_cases hc : c = slash
    · subst hc
      rw [segments_slash_cons] at h
      rcases List.mem_cons.1 h with rfl | h
      · simp
      · exact ih s h
    · rw [segments_cons_of_ne c t hc] at h
      rcases List.mem_cons.1 h with rfl | h
      · intro hm
        rcases List.mem_cons.1 hm with hm | hm
        · exact hc hm.symm
        · refine ih _ ?_ hm
          rw [segments_eq_head_tail t]
          exact List.mem_cons_self _ _
      · exact ih s (List.mem_of_mem_tail h)

theorem segments_of_no_slash : ∀ e : GoString, slash ∉ e → segments e = [e]
  | [], _ => rfl
  | c :: t, h => by
    simp only [List.mem_cons, not_or] at h
    rw [segments_cons_of_ne c t (Ne.symm h.1), segments_of_no_slash t h.2]
    rfl

theorem addSlash_relative (o : GoString) (h : o ≠ []) : addSlash false o = o ++ [slash] := by
  have : o.length ≠ 0 := fun h0 => h (List.length_eq_zero.1 h0)
  simp [addSlash, this]

theorem segments_copyElements :
    ∀ (elems : List GoString) (o : GoString), o ≠ [] → (∀ e ∈ elems, slash ∉ e) →
      segments (copyElements false o elems) = segments o ++ elems
  | [], o, _, _ => by simp [copyElements]
  | e :: rest, o, ho, h => by
    rw [copyElements_cons, addSlash_relative o ho,
      segments_copyElements rest _ (by simp) (fun x hx => h x (List.mem_cons_of_mem _ hx))]
    rw [List.append_assoc, List.singleton_append, segments_append_slash,
      segments_of_no_slash e (h e (List.mem_cons_self _ _))]
    simp

theorem head_copyElements (r : Bool) :
    ∀ (elems : List GoString) (o : GoString), o ≠ [] →
      (copyElements r o elems).head? = o.head?
  | [], _, _ => rfl
  | e :: rest, o, ho => by
    rw [copyElements_cons, head_copyElements r rest _ (by
      unfold addSlash
      split <;> simp [ho])]
    unfold addSlash
    split <;> (cases o <;> simp_all)

theorem mem_realElements (p e : GoString) (h : e ∈ realElements p) :
    e ∈ segments p ∧ e ≠ [] := by
  unfold realElements at h
  rw [List.mem_filter] at h
  refine ⟨h.1, ?_⟩
  have h2 := h.2
  simp only [Bool.and_eq_true, decide_eq_true_eq] at h2
  exact h2.1

/-- Joining a non-empty directory with a name that has no element `..` gives
a path in or below the cleaned directory; when that is `.`, a relative path
without an element `..`. -/
theorem pathJoin_liesUnder (d n : GoString) (hd : d ≠ []) (hn : lit ".." ∉ segments n) :
    liesUnder (pathClean d) (pathJoin [d, n]) := by
  unfold liesUnder
  split
  case isFalse hclean => exact pathJoin_underDir d n hd hclean hn
  case isTrue hclean =>
    have hn' : [dot, dot] ∉ segments n := hn
    have hcd := pathClean_of_ne_nil d hd
    have hjoin : d ++ slash :: n ≠ [] := by simp
    rw [pathJoin_pair d n hd, pathClean_of_ne_nil _ hjoin, cleanState_append_slash d n hd,
      cleanLoop_copies _ n false _ _ (fun _ => hn') (fun hf => by cases hf)]
    simp only [Bool.false_eq_true, if_false]
    -- the directory is not rooted
    have hr : decide (d.head? = some slash) = false := by
      cases hdec : decide (d.head? = some slash)
      · rfl
      · have hh := cleanState_rooted_head d (of_decide_eq_true hdec)
        rw [hcd] at hclean
        split at hclean
        · next h0 => rw [h0] at hh; cases hh
        · rw [hclean] at hh
          exact absurd hh (by decide)
    rw [hr]
    have helems : ∀ e ∈ realElements n, slash ∉ e ∧ e ≠ [] ∧ e ≠ [dot, dot] := by
      intro e he
      have h1 := mem_realElements n e he
      exact ⟨slash_not_mem_of_mem_segments n e h1.1, h1.2, fun h => hn' (h ▸ h1.1)⟩
    generalize realElements n = elems at helems
    generalize ho : (cleanState d).1 = o at hcd
    by_cases hR : copyElements false o elems = []
    · rw [if_pos hR]
      decide
    · rw [if_neg hR]
      by_cases ho0 : o = []
      · subst ho0
        cases elems with
        | nil => exact absurd rfl hR
        | cons e rest =>
          have he := helems e (List.mem_cons_self _ _)
          have hstep : copyElements false [] (e :: rest) = copyElements false e rest := by
            rw [copyElements_cons]
            rfl
          rw [hstep, head_copyElements false rest e he.2.1,
            segments_copyElements rest e he.2.1
              (fun x hx => (helems x (List.mem_cons_of_mem _ hx)).1),
            segments_of_no_slash e he.1]
          refine ⟨?_, ?_⟩
          · cases e with
            | nil => exact absurd rfl he.2.1
            | cons c t =>
              simp only [List.head?_cons, ne_eq, Option.some.injEq]
              intro hc
              exact he.1 (by simp [hc])
          · intro hm
            simp only [List.singleton_append] at hm
            exact (helems _ hm).2.2 rfl
      · rw [hcd, if_neg ho0] at hclean
        subst hclean
        rw [head_copyElements false elems _ ho0,
          segments_copyElements elems _ ho0 (fun x hx => (helems x hx).1)]
        refine ⟨by decide, ?_⟩
        intro hm
        rcases List.mem_append.1 hm with hm | hm
        · revert hm
          decide
        · exact (helems _ hm).2.2 rfl

theorem joinSlash_cons_cons (e e2 : GoString) (rest : List GoString) :
    joinSlash (e :: e2 :: rest) = e ++ slash :: joinSlash (e2 :: rest) := rfl

theorem joinSlash_segments : ∀ p : GoString, joinSlash (segments p) = p
  | [] => rfl
  | c :: t => by
    have ih := joinSlash_segments t
    rw [segments_eq_head_tail t] at ih
    by_cases hc : c = slash
    · subst hc
      rw [segments_slash_cons, segments_eq_head_tail t, joinSlash_cons_cons, ih]
      rfl
    · rw [segments_cons_of_ne c t hc]
      cases htl : (segments t).tail with
      | nil =>
        rw [htl] at ih
        simp only [joinSlash] at ih ⊢
        rw [ih]
      | cons e2 rest =>
        rw [htl, joinSlash_cons_cons] at ih
        rw [joinSlash_cons_cons, List.cons_append, ih]

theorem copyElements_eq_joinSlash (r : Bool) :
    ∀ (elems : List GoString) (o : GoString), elems ≠ [] → o ≠ [] →
      addSlash r o = o ++ [slash] → copyElements r o elems = o ++ slash :: joinSlash elems
  | [], _, h, _, _ => absurd rfl h
  | [e], o, _, _, hs => by
    simp [copyElements, hs, joinSlash]
  | e :: e2 :: rest, o, _, ho, hs => by
    have hlen : 0 < o.length := List.length_pos.2 ho
    have hs2 : addSlash r (o ++ [slash] ++ e) = o ++ [slash] ++ e ++ [slash] := by
      have h1 : ((o ++ [slash] ++ e).length != 1) = true := by
        simp only [List.length_append, List.length_singleton, bne_iff_ne, ne_eq]
        omega
      have h0 : ((o ++ [slash] ++ e).length != 0) = true := by
        simp only [List.length_append, List.length_singleton, bne_iff_ne, ne_eq]
        omega
      unfold addSlash
      rw [h1, h0]
      cases r <;> rfl
    rw [copyElements_cons, hs,
      copyElements_eq_joinSlash r (e2 :: rest) _ (by simp) (by simp) hs2, joinSlash_cons_cons]
    simp

/-- Joining a clean directory other than `.` and `/` with a name whose
elements are all real (not empty, not `.`, not `..`) puts the name after the
directory and a slash. -/
theorem pathJoin_exact (d n : GoString) (hd : d ≠ []) (hclean : pathClean d = d)
    (hdot : d ≠ lit ".") (hroot : d ≠ lit "/")
    (hn : ∀ e ∈ segments n, e ≠ [] ∧ e ≠ lit "." ∧ e ≠ lit "..") :
    pathJoin [d, n] = d ++ slash :: n := by
  have hn' : [dot, dot] ∉ segments n := fun h => (hn _ h).2.2 rfl
  have hcd := pathClean_of_ne_nil d hd
  have ho : (cleanState d).1 = d := by
    rw [hclean] at hcd
    split at hcd
    · exact absurd hcd hdot
    · exact hcd.symm
  have hreal : realElements n = segments n := by
    unfold realElements
    rw [List.filter_eq_self]
    intro e he
    have h := hn e he
    have h2 : e ≠ [dot] := h.2.1
    simp [h.1, h2]
  have hjoin : d ++ slash :: n ≠ [] := by simp
  have hs : addSlash (decide (d.head? = some slash)) d = d ++ [slash] := by
    unfold addSlash
    have h0 : d.length ≠ 0 := fun h => hd (List.length_eq_zero.1 h)
    cases hdec : decide (d.head? = some slash)
    · simp [h0]
    · have h1 : d.length ≠ 1 := by
        intro h1
        apply hroot
        have hh := of_decide_eq_true hdec
        cases d with
        | nil => exact absurd rfl hd
        | cons x t =>
          cases t with
          | nil =>
            simp only [List.head?_cons, Option.some.injEq] at hh
            subst hh
            decide
          | cons y t2 => simp at h1
      simp [h1]
  rw [pathJoin_pair d n hd, pathClean_of_ne_nil _ hjoin, cleanState_append_slash d n hd,
    cleanLoop_copies _ n false _ _ (fun _ => hn') (fun hf => by cases hf)]
  simp only [Bool.false_eq_true, if_false]
  rw [ho, hreal, copyElements_eq_joinSlash _ (segments n) d (segments_ne_nil n) hd hs,
    joinSlash_segments]
  simp

/-! ## The claim on the destination of a file -/

/-- C8, as the code has it: the only file `writeToFile` creates is the one at
`path.Join(outputDir, name)`, the cleaned form of `outputDir/name`. When the
output directory is set and no element of the name is `..`, this destination
is the cleaned output directory or lies below it (a relative path without an
element `..` when the directory cleans to `.`). When moreover the directory
is clean and neither `.` nor `/` and no element of the name is empty or `.`,
the destination is the directory, a slash and the name. -/
theorem writeToFile_destination {σ χ ρ : Type} (env : Env σ χ ρ)
    (outputDir name data : GoString) (w : World σ) :
    (∃ evs, (writeToFile env outputDir name data w).2.trace = w.trace ++ evs ∧
      ∀ p ∈ createdPaths evs, p = pathJoin [outputDir, name]) ∧
    (outputDir ≠ [] → lit ".." ∉ segments name →
      liesUnder (pathClean outputDir) (pathJoin [outputDir, name])) ∧
    (outputDir ≠ [] → pathClean outputDir = outputDir →
      outputDir ≠ lit "." → outputDir ≠ lit "/" →
      (∀ e ∈ segments name, e ≠ [] ∧ e ≠ lit "." ∧ e ≠ lit "..") →
      pathJoin [outputDir, name] = outputDir ++ lit "/" ++ name) := by
  refine ⟨?_, fun hd hn => pathJoin_liesUnder outputDir name hd hn, ?_⟩
  · rcases writeToFile_trace env outputDir name data w with ⟨evs, h, hev⟩
    refine ⟨.writeToFile outputDir name data :: evs, h, ?_⟩
    intro p hp
    have hp' : p ∈ createdPaths evs := by
      simpa [createdPaths] using hp
    exact createdPaths_of_fileEvents _ evs hev p hp'
  · intro hd hc hdot hroot hn
    rw [pathJoin_exact outputDir name hd hc hdot hroot hn]
    have : lit "/" = [slash] := by decide
    rw [this]
    simp

/-- C8 for the name `c/templates/a.yaml`: with the output directory `./out/`
the file is created at `out/c/templates/a.yaml`, below `out`; with `out` the
destination is `out`, a slash and the name. -/
theorem writeToFile_destination_witness :
    lit "./out/" ≠ [] ∧ pathClean (lit "./out/") = lit "out" ∧
    lit ".." ∉ segments (lit "c/templates/a.yaml") ∧
    createdPaths (writeToFile writableEnv (lit "./out/") (lit "c/templates/a.yaml")
      (lit "x: 1\n") startWorld).2.trace = [lit "out/c/templates/a.yaml"] ∧
    liesUnder (pathClean (lit "./out/")) (pathJoin [lit "./out/", lit "c/templates/a.yaml"]) ∧
    pathClean (lit "out") = lit "out" ∧
    pathJoin [lit "out", lit "c/templates/a.yaml"] =
      lit "out" ++ lit "/" ++ lit "c/templates/a.yaml" :=
  ⟨by decide, by decide, by decide, by decide,
   (writeToFile_destination writableEnv (lit "./out/") (lit "c/templates/a.yaml")
      (lit "x: 1\n") startWorld).2.1 (by decide) (by decide),
   by decide,
   (writeToFile_destination writableEnv (lit "out") (lit "c/templates/a.yaml")
      (lit "x: 1\n") startWorld).2.2 (by decide) (by decide) (by decide) (by decide)
      (by decide)⟩

/-- C8 fails for the output directory `out` and the name `../x`: the
destination is `x`, which does not have `out` as an initial segment, and this
is the file that is created. -/
theorem writeToFile_escapes_outputDir :
    pathJoin [lit "out", lit "../x"] = lit "x" ∧
    ¬ (lit "out" <+: pathJoin [lit "out", lit "../x"]) ∧
    ¬ liesUnder (pathClean (lit "out")) (pathJoin [lit "out", lit "../x"]) ∧
    createdPaths (writeToFile writableEnv (lit "out") (lit "../x") (lit "data")
      startWorld).2.trace = [lit "x"] := by
  refine ⟨by decide, by decide, ?_, by decide⟩
  have hne : ¬ (pathClean (lit "out") = lit ".") := by decide
  unfold liesUnder
  rw [if_neg hne]
  rintro ⟨rel, h, _⟩
  have hc : pathClean (lit "out") = lit "out" := by decide
  rw [hc] at h
  have h2 : lit "out" <+: pathJoin [lit "out", lit "../x"] := ⟨rel, h.symm⟩
  revert h2
  decide

/-! ## The last element of a path -/

theorem exists_last_slash : ∀ p : GoString, slash ∈ p →
    ∃ a b : GoString, p = a ++ slash :: b ∧ slash ∉ b
  | [], h => by simp at h
  | c :: t, h => by
    by_cases ht : slash ∈ t
    · rcases exists_last_slash t ht with ⟨a, b, hab, hb⟩
      exact ⟨c :: a, b, by rw [hab]; rfl, hb⟩
    · rcases List.mem_cons.1 h with hc | hc
      · exact ⟨[], t, by rw [← hc]; rfl, ht⟩
      · exact absurd hc ht

theorem lastElement_of_no_slash (p : GoString) (h : slash ∉ p) : lastElement p = p := by
  unfold lastElement
  rw [List.takeWhile_eq_self_iff.2, List.reverse_reverse]
  intro x hx
  have hx' : x ∈ p := List.mem_reverse.1 hx
  simp only [ne_eq, decide_not, Bool.not_eq_true', decide_eq_false_iff_not]
  intro hxs
  exact h (hxs ▸ hx')

theorem lastElement_append_slash (a b : GoString) (h : slash ∉ b) :
    lastElement (a ++ slash :: b) = b := by
  unfold lastElement
  have hrev : (a ++ slash :: b).reverse = b.reverse ++ slash :: a.reverse := by simp
  rw [hrev, List.takeWhile_append_of_pos]
  · simp
  · intro x hx
    have hx' : x ∈ b := List.mem_reverse.1 hx
    simp only [ne_eq, decide_not, Bool.not_eq_true', decide_eq_false_iff_not]
    intro hxs
    exact h (hxs ▸ hx')

/-- The part of a path after its last slash is the last of its elements. -/
theorem getLast_segments (p : GoString) : (segments p).getLast? = some (lastElement p) := by
  by_cases h : slash ∈ p
  · rcases exists_last_slash p h with ⟨a, b, rfl, hb⟩
    rw [lastElement_append_slash a b hb, segments_append_slash, segments_of_no_slash b hb]
    simp
  · rw [lastElement_of_no_slash p h, segments_of_no_slash p h]
    rfl

theorem stripTrailingSlashes_of_last_ne (p : GoString) (h : p.getLast? ≠ some slash) :
    stripTrailingSlashes p = p := by
  unfold stripTrailingSlashes
  cases hr : p.reverse with
  | nil =>
    have : p = [] := by simpa using hr
    subst this
    rfl
  | cons x t =>
    have hp : p = (x :: t).reverse := by rw [← hr, List.reverse_reverse]
    have hx : x ≠ slash := by
      intro hxs
      apply h
      rw [hp, hxs]
      simp
    rw [List.dropWhile_cons_of_neg (by simpa using hx), ← hr, List.reverse_reverse]

/-- For a name that is not empty and does not end in a slash, `filepath.Base`
is the last of its elements. -/
theorem filepathBase_eq_last_segment (name : GoString) (hne : name ≠ [])
    (hend : name.getLast? ≠ some slash) :
    (segments name).getLast? = some (filepathBase name) := by
  have hlast : lastElement name ≠ [] := by
    by_cases h : slash ∈ name
    · rcases exists_last_slash name h with ⟨a, b, rfl, hb⟩
      rw [lastElement_append_slash a b hb]
      intro hb0
      subst hb0
      apply hend
      simp
    · rw [lastElement_of_no_slash name h]
      exact hne
  unfold filepathBase
  rw [if_neg hne]
  simp only [stripTrailingSlashes_of_last_ne name hend, if_neg hlast]
  exact getLast_segments name

/-! ## What is printed and what is written -/

section Emit
variable {σ χ ρ : Type}

theorem printOutput_stdout (env : Env σ χ ρ) (flags : Flags) (name data : GoString)
    (w : World σ) (hdir : flags.outputDir = []) :
    printOutput env flags name data w =
      { w with trace := w.trace ++ stdoutBlock name data } := by
  simp [printOutput, hdir, println, printf, World.log, stdoutBlock]

theorem printOnly_stdout (env : Env σ χ ρ) (flags : Flags) (out : StringMap)
    (hdir : flags.outputDir = []) :
    ∀ (names : List GoString) (w : World σ),
      printOnly env flags out names w =
        { w with trace := w.trace ++
            (selectOnly flags out names).flatMap (fun c => stdoutBlock c.1 c.2) }
  | [], w => by simp [printOnly, selectOnly]
  | name :: rest, w => by
    simp only [printOnly, selectOnly]
    split
    · rw [printOnly_stdout env flags out hdir rest, printOutput_stdout env flags _ _ w hdir]
      simp
    · exact printOnly_stdout env flags out hdir rest w

theorem printDefault_stdout (env : Env σ χ ρ) (flags : Flags) (out : StringMap)
    (hdir : flags.outputDir = []) :
    ∀ (names : List GoString) (w : World σ),
      printDefault env flags out names w =
        { w with trace := w.trace ++
            (selectDefault flags out names).flatMap (fun c => stdoutBlock c.1 c.2) }
  | [], w => by simp [printDefault, selectDefault]
  | name :: rest, w => by
    simp only [printDefault, selectDefault]
    split
    · exact printDefault_stdout env flags out hdir rest w
    · split
      · exact printDefault_stdout env flags out hdir rest w
      · rw [printDefault_stdout env flags out hdir rest,
          printOutput_stdout env flags _ _ w hdir]
        simp

/-- With no output directory, the output part of `run` prints the block of
every artifact it passes to `printOutput`, in order, and does nothing else. -/
theorem runOutput_stdout (env : Env σ χ ρ) (flags : Flags) (out : StringMap) (w : World σ)
    (hdir : flags.outputDir = []) :
    (runOutput env flags out w).2 =
      { w with trace := w.trace ++
          (outputCalls flags out).flatMap (fun c => stdoutBlock c.1 c.2) } := by
  unfold runOutput outputCalls
  dsimp only
  split
  · exact printOnly_stdout env flags out hdir _ w
  · exact printDefault_stdout env flags out hdir _ w

theorem writeCalls_printOutput (env : Env σ χ ρ) (flags : Flags) (name data : GoString)
    (w : World σ) (hdir : flags.outputDir ≠ []) :
    writeCalls (printOutput env flags name data w).trace =
      writeCalls w.trace ++
        (if whitespaceRegex.matchString data then []
          else [(flags.outputDir, name, data)]) := by
  have hlog : writeCalls (w.log (.printOutput name data)).trace = writeCalls w.trace := by
    simp [World.log, writeCalls, List.filterMap_append]
  cases hm : whitespaceRegex.matchString data
  · have hw := writeCalls_writeToFile env flags.outputDir name data
      (w.log (.printOutput name data))
    simp only [printOutput, hdir, hm, ne_eq, not_false_eq_true, if_true, Bool.not_false,
      Bool.false_eq_true, if_false]
    cases hr : writeToFile env flags.outputDir name data (w.log (.printOutput name data)) with
    | mk r w1 =>
      rw [hr, hlog] at hw
      cases r with
      | some err => simpa [println, World.log, writeCalls, List.filterMap_append] using hw
      | none => exact hw
  · simp [printOutput, hdir, hm, hlog]

theorem writeCalls_printOnly (env : Env σ χ ρ) (flags : Flags) (out : StringMap)
    (hdir : flags.outputDir ≠ []) :
    ∀ (names : List GoString) (w : World σ),
      writeCalls (printOnly env flags out names w).trace =
        writeCalls w.trace ++
          ((selectOnly flags out names).filter
            (fun c => !whitespaceRegex.matchString c.2)).map
            (fun c => (flags.outputDir, c.1, c.2))
  | [], w => by simp [printOnly, selectOnly]
  | name :: rest, w => by
    simp only [printOnly, selectOnly]
    split
    · rw [writeCalls_printOnly env flags out hdir rest,
        writeCalls_printOutput env flags _ _ w hdir]
      cases hm : whitespaceRegex.matchString (out.get name) <;> simp [List.filter_cons, hm]
    · exact writeCalls_printOnly env flags out hdir rest w

theorem writeCalls_printDefault (env : Env σ χ ρ) (flags : Flags) (out : StringMap)
    (hdir : flags.outputDir ≠ []) :
    ∀ (names : List GoString) (w : World σ),
      writeCalls (printDefault env flags out names w).trace =
        writeCalls w.trace ++
          ((selectDefault flags out names).filter
            (fun c => !whitespaceRegex.matchString c.2)).map
            (fun c => (flags.outputDir, c.1, c.2))
  | [], w => by simp [printDefault, selectDefault]
  | name :: rest, w => by
    simp only [printDefault, selectDefault]
    split
    · exact writeCalls_printDefault env flags out hdir rest w
    · split
      · exact writeCalls_printDefault env flags out hdir rest w
      · rw [writeCalls_printDefault env flags out hdir rest,
          writeCalls_printOutput env flags _ _ w hdir]
        cases hm : whitespaceRegex.matchString (out.get name) <;>
          simp [List.filter_cons, hm]

/-- With an output directory, the output part of `run` calls `writeToFile`
for the artifacts it passes to `printOutput` whose text is not blank, in
order, and for nothing else. -/
theorem runOutput_writes (env : Env σ χ ρ) (flags : Flags) (out : StringMap) (w : World σ)
    (hdir : flags.outputDir ≠ []) :
    writeCalls (runOutput env flags out w).2.trace =
      writeCalls w.trace ++
        ((outputCalls flags out).filter (fun c => !whitespaceRegex.matchString c.2)).map
          (fun c => (flags.outputDir, c.1, c.2)) := by
  unfold runOutput outputCalls
  dsimp only
  split
  · exact writeCalls_printOnly env flags out hdir _ w
  · exact writeCalls_printDefault env flags out hdir _ w

end Emit

/-! ## The claims on the selection and order of the output -/

section SelectClaims
variable {σ χ ρ : Type}

theorem printOnly_showNotes (env : Env σ χ ρ) (flags : Flags) (b : Bool) (out : StringMap) :
    ∀ (names : List GoString) (w : World σ),
      printOnly env { flags with showNotes := b } out names w = printOnly env flags out names w
  | [], _ => rfl
  | name :: rest, w => by
    simp only [printOnly]
    rw [printOnly_showNotes env flags b out rest, printOnly_showNotes env flags b out rest]
    rfl

theorem run_showNotes_of_renderFiles (env : Env σ χ ρ) (flags : Flags) (b : Bool)
    (args : List GoString) (w : World σ) (hx : flags.renderFiles ≠ []) :
    run env { flags with showNotes := b } args w = run env flags args w := by
  have hr : runRender env { flags with showNotes := b } args w = runRender env flags args w :=
    rfl
  have hpos : 0 < flags.renderFiles.length := List.length_pos.2 hx
  simp only [run, hr]
  rcases runRender env flags args w with ⟨r, w1⟩
  cases r with
  | error o => rfl
  | ok out =>
    simp only [runOutput, hpos, if_true]
    rw [printOnly_showNotes]

/-- C3, as the code has it: with no explicit list of templates (`renderFiles`
empty), `run` passes an artifact of the render output to `printOutput`
exactly when the final path segment of its name (`filepath.Base`) does not
start with `_` and it is not the case that this segment is `NOTES.txt` while
`showNotes` is false; for a name that is not empty and does not end in a
slash, `filepath.Base` is the last of the pieces between its slashes. With
no output directory every artifact passed is printed, and nothing else is;
with an output directory `writeToFile` is called for exactly the artifacts
passed whose text is not blank. -/
theorem run_default_selection (env : Env σ χ ρ) (flags : Flags) (args : List GoString)
    (w w1 : World σ) (out : StringMap)
    (hr : runRender env flags args w = (.ok out, w1)) (hx : flags.renderFiles = []) :
    printCalls (run env flags args w).2.trace = printCalls w.trace ++ outputCalls flags out ∧
    (∀ name data, (name, data) ∈ outputCalls flags out ↔
      ((name, data) ∈ out.entries ∧ hasPrefix (filepathBase name) (lit "_") = false ∧
        ¬ (filepathBase name = lit "NOTES.txt" ∧ flags.showNotes = false))) ∧
    (∀ name : GoString, name ≠ [] → name.getLast? ≠ some slash →
      (segments name).getLast? = some (filepathBase name)) ∧
    (flags.outputDir = [] →
      (run env flags args w).2 =
        { w1 with trace := w1.trace ++
            (outputCalls flags out).flatMap (fun c => stdoutBlock c.1 c.2) }) ∧
    (flags.outputDir ≠ [] →
      writeCalls (run env flags args w).2.trace =
        writeCalls w1.trace ++
          ((outputCalls flags out).filter (fun c => !whitespaceRegex.matchString c.2)).map
            (fun c => (flags.outputDir, c.1, c.2))) := by
  refine ⟨(run_calls env flags args w w1 out hr).2, ?_, filepathBase_eq_last_segment,
    fun hdir => by
      rw [run_eq_runOutput env flags args w w1 out hr]
      exact runOutput_stdout env flags out w1 hdir,
    fun hdir => by
      rw [run_eq_runOutput env flags args w w1 out hr]
      exact runOutput_writes env flags out w1 hdir⟩
  intro name data
  have hlen : ¬ 0 < flags.renderFiles.length := by simp [hx]
  simp only [outputCalls, hlen, if_false, selectDefault_eq, List.mem_map, List.mem_filter,
    mem_sortStrings, StringMap.mem_entries_iff, Prod.mk.injEq]
  constructor
  · rintro ⟨n, ⟨hk, hc⟩, rfl, rfl⟩
    refine ⟨⟨hk, rfl⟩, ?_⟩
    simp only [Bool.and_eq_true, Bool.not_eq_true', Bool.and_eq_false_imp, decide_eq_true_eq,
      decide_eq_false_iff_not] at hc
    refine ⟨hc.2, ?_⟩
    rintro ⟨hb, hs⟩
    exact hc.1 hs hb
  · rintro ⟨⟨hk, rfl⟩, hp, hn⟩
    refine ⟨name, ⟨hk, ?_⟩, rfl, rfl⟩
    simp only [Bool.and_eq_true, Bool.not_eq_true', hp, and_true]
    cases hs : flags.showNotes
    · simp only [hs, and_true] at hn
      simp [hn]
    · simp

/-- C3 on the demo chart: of its five artifacts the three manifests are
passed to `printOutput`, the notes and the helpers are not; with no output
directory the three are printed, and with the output directory `out` the
blank one is not written. -/
theorem run_default_selection_witness :
    runRender demoEnv defaultFlags [lit "c"] startWorld = (.ok demoOut, startWorld) ∧
    defaultFlags.renderFiles = [] ∧
    printCalls (run demoEnv defaultFlags [lit "c"] startWorld).2.trace =
      [(lit "c/templates/a.yaml", lit "x: 1\n"), (lit "c/templates/b.yaml", lit "y: 2\n"),
       (lit "c/templates/blank.yaml", lit " \n")] ∧
    ((lit "c/templates/NOTES.txt", lit "note") ∈ outputCalls defaultFlags demoOut ↔
      ((lit "c/templates/NOTES.txt", lit "note") ∈ demoOut.entries ∧
        hasPrefix (filepathBase (lit "c/templates/NOTES.txt")) (lit "_") = false ∧
        ¬ (filepathBase (lit "c/templates/NOTES.txt") = lit "NOTES.txt" ∧
          defaultFlags.showNotes = false))) ∧
    (run demoEnv defaultFlags [lit "c"] startWorld).2.trace =
      stdoutBlock (lit "c/templates/a.yaml") (lit "x: 1\n") ++
      stdoutBlock (lit "c/templates/b.yaml") (lit "y: 2\n") ++
      stdoutBlock (lit "c/templates/blank.yaml") (lit " \n") ∧
    writeCalls (run demoEnv dirFlags [lit "c"] startWorld).2.trace =
      [(lit "out", lit "c/templates/a.yaml", lit "x: 1\n"),
       (lit "out", lit "c/templates/b.yaml", lit "y: 2\n")] :=
  ⟨rfl, rfl,
   (run_default_selection demoEnv defaultFlags [lit "c"] startWorld startWorld demoOut
      rfl rfl).1.trans (by decide),
   (run_default_selection demoEnv defaultFlags [lit "c"] startWorld startWorld demoOut
      rfl rfl).2.1 _ _,
   (congrArg World.trace
      ((run_default_selection demoEnv defaultFlags [lit "c"] startWorld startWorld demoOut
        rfl rfl).2.2.2.1 rfl)).trans (by decide),
   ((run_default_selection demoEnv dirFlags [lit "c"] startWorld
      (startWorld.log (.stat (lit "out"))) demoOut rfl rfl).2.2.2.2 (by decide)).trans
      (by decide)⟩

/-- C3 fails for the output directory `out` and a chart whose one artifact
`c/templates/blank.yaml` is a space and a line feed: the artifact meets the
condition of the claim, and the run neither prints nor writes it. -/
theorem run_default_skips_blank :
    runRender blankEnv dirFlags [lit "c"] startWorld =
      (.ok blankOut, startWorld.log (.stat (lit "out"))) ∧
    dirFlags.renderFiles = [] ∧
    (lit "c/templates/blank.yaml", lit " \n") ∈ blankOut.entries ∧
    hasPrefix (filepathBase (lit "c/templates/blank.yaml")) (lit "_") = false ∧
    filepathBase (lit "c/templates/blank.yaml") ≠ lit "NOTES.txt" ∧
    (run blankEnv dirFlags [lit "c"] startWorld).2.trace =
      [.stat (lit "out"), .printOutput (lit "c/templates/blank.yaml") (lit " \n")] :=
  ⟨rfl, rfl, by decide, by decide, by decide, by decide⟩

/-- C4, as the code has it: with an explicit list (`renderFiles` non-empty),
`run` passes to `printOutput` exactly the artifacts of the render output
whose name is in the list, each once, whatever their names: the run is the
same whatever `showNotes` is. With no output directory every artifact passed
is printed, and nothing else is; with an output directory `writeToFile` is
called for exactly the artifacts passed whose text is not blank. -/
theorem run_restricted_selection (env : Env σ χ ρ) (flags : Flags) (args : List GoString)
    (w w1 : World σ) (out : StringMap)
    (hr : runRender env flags args w = (.ok out, w1)) (hx : flags.renderFiles ≠ []) :
    printCalls (run env flags args w).2.trace = printCalls w.trace ++ outputCalls flags out ∧
    (outputCalls flags out).Nodup ∧
    (∀ name data, (name, data) ∈ outputCalls flags out ↔
      ((name, data) ∈ out.entries ∧ name ∈ flags.renderFiles)) ∧
    (∀ b, run env { flags with showNotes := b } args w = run env flags args w) ∧
    (flags.outputDir = [] →
      (run env flags args w).2 =
        { w1 with trace := w1.trace ++
            (outputCalls flags out).flatMap (fun c => stdoutBlock c.1 c.2) }) ∧
    (flags.outputDir ≠ [] →
      writeCalls (run env flags args w).2.trace =
        writeCalls w1.trace ++
          ((outputCalls flags out).filter (fun c => !whitespaceRegex.matchString c.2)).map
            (fun c => (flags.outputDir, c.1, c.2))) := by
  refine ⟨(run_calls env flags args w w1 out hr).2, outputCalls_nodup flags out, ?_,
    fun b => run_showNotes_of_renderFiles env flags b args w hx,
    fun hdir => by
      rw [run_eq_runOutput env flags args w w1 out hr]
      exact runOutput_stdout env flags out w1 hdir,
    fun hdir => by
      rw [run_eq_runOutput env flags args w w1 out hr]
      exact runOutput_writes env flags out w1 hdir⟩
  intro name data
  have hlen : 0 < flags.renderFiles.length := List.length_pos.2 hx
  simp only [outputCalls, hlen, if_true, selectOnly_eq, List.mem_map, List.mem_filter,
    mem_sortStrings, StringMap.mem_entries_iff, Prod.mk.injEq, inList_iff]
  constructor
  · rintro ⟨n, ⟨hk, hc⟩, rfl, rfl⟩
    exact ⟨⟨hk, rfl⟩, hc⟩
  · rintro ⟨⟨hk, rfl⟩, hc⟩
    exact ⟨name, ⟨hk, hc⟩, rfl, rfl⟩

/-- C4 on the demo chart with the notes and the helpers named: both are
passed to `printOutput` and printed, and nothing else. -/
theorem run_restricted_selection_witness :
    runRender demoEnv restrictedFlags [lit "c"] startWorld = (.ok demoOut, startWorld) ∧
    restrictedFlags.renderFiles ≠ [] ∧
    printCalls (run demoEnv restrictedFlags [lit "c"] startWorld).2.trace =
      [(lit "c/templates/NOTES.txt", lit "note"), (lit "c/templates/_helpers.tpl", lit "h")] ∧
    run demoEnv { restrictedFlags with showNotes := true } [lit "c"] startWorld =
      run demoEnv restrictedFlags [lit "c"] startWorld ∧
    (run demoEnv restrictedFlags [lit "c"] startWorld).2.trace =
      stdoutBlock (lit "c/templates/NOTES.txt") (lit "note") ++
      stdoutBlock (lit "c/templates/_helpers.tpl") (lit "h") :=
  ⟨rfl, by decide,
   (run_restricted_selection demoEnv restrictedFlags [lit "c"] startWorld startWorld demoOut
      rfl (by decide)).1.trans (by decide),
   (run_restricted_selection demoEnv restrictedFlags [lit "c"] startWorld startWorld demoOut
      rfl (by decide)).2.2.2.1 true,
   (congrArg World.trace
      ((run_restricted_selection demoEnv restrictedFlags [lit "c"] startWorld startWorld
        demoOut rfl (by decide)).2.2.2.2.1 rfl)).trans (by decide)⟩

/-- C4 fails for the output directory `out` and the blank artifact
`c/templates/blank.yaml` named for execution: it is an artifact of the
render output and in the list, and the run neither prints nor writes it. -/
theorem run_restricted_skips_blank :
    runRender blankEnv blankOnlyFlags [lit "c"] startWorld =
      (.ok blankOut, startWorld.log (.stat (lit "out"))) ∧
    blankOnlyFlags.renderFiles ≠ [] ∧
    (lit "c/templates/blank.yaml", lit " \n") ∈ blankOut.entries ∧
    lit "c/templates/blank.yaml" ∈ blankOnlyFlags.renderFiles ∧
    (run blankEnv blankOnlyFlags [lit "c"] startWorld).2.trace =
      [.stat (lit "out"), .printOutput (lit "c/templates/blank.yaml") (lit " \n")] :=
  ⟨rfl, by decide, by decide, by decide, by decide⟩

/-- C5: in both modes the names that `run` passes to `printOutput` are in
strictly ascending lexicographic order of their bytes, and they are a
subsequence of the sorted key set of the render output. -/
theorem run_output_order (env : Env σ χ ρ) (flags : Flags) (args : List GoString)
    (w w1 : World σ) (out : StringMap)
    (hr : runRender env flags args w = (.ok out, w1)) :
    printCalls (run env flags args w).2.trace = printCalls w.trace ++ outputCalls flags out ∧
    ((outputCalls flags out).map Prod.fst).Pairwise
      (fun a b => List.Lex (fun x y : Byte => x < y) a b) ∧
    ((outputCalls flags out).map Prod.fst).Sublist (sortStrings out.keys) ∧
    (sortStrings out.keys).Perm out.keys ∧
    (sortStrings out.keys).Pairwise (fun a b => List.Lex (fun x y : Byte => x < y) a b) := by
  refine ⟨(run_calls env flags args w w1 out hr).2, ?_, outputCalls_names_sublist flags out,
    sortStrings_perm _, ?_⟩
  · exact (outputCalls_names_sorted flags out).imp (fun h => (strLess_iff_lex _ _).1 h)
  · exact (sortStrings_sorted out.keys out.nodup).imp (fun h => (strLess_iff_lex _ _).1 h)

/-- C5 on the render output `b.yaml`, `a.yaml`: `a.yaml` comes first. -/
theorem run_output_order_witness :
    runRender twoEnv defaultFlags [lit "c"]
      startWorld = (.ok twoOut, startWorld) ∧
    (printCalls (run twoEnv defaultFlags [lit "c"]
      startWorld).2.trace).map Prod.fst = [lit "a.yaml", lit "b.yaml"] :=
  ⟨rfl,
   (congrArg (List.map Prod.fst)
      (run_output_order twoEnv defaultFlags [lit "c"]
        startWorld startWorld twoOut rfl).1).trans (by decide)⟩

end SelectClaims

end HelmTemplate
